import Mathlib

/-!
Verification of the SkillPlan learning-plan generator
(`src/app/page.tsx`, scheduler section, together with the data model of
`lib/types`).

The scheduler is a pure function `generateSchedule(skills, settings)`
returning `{ schedule, summary }` or throwing one of three errors.  This
file gives a shallow embedding of that function and proves properties of
it.

Modelling conventions (each is noted again at the definition it concerns):

* JavaScript `number` is modelled by `ℚ` (the source only performs the four
  arithmetic operations, `Math.min`, `Math.floor`, `Math.round` on values
  derived from its inputs, which are exact on rationals of this size).
* A calendar `Date` is modelled by its epoch-day number `ℤ`; the date-fns
  `parse`/`format` pair for `yyyy-MM-dd` becomes the identity on that
  number, and `addDays d 1` becomes `d + 1`.  Daily mode uses `new Date()`
  ("today"), which is passed as an explicit `today : ℤ` argument.
* A JS `Map<string, number>` keyed by skill ids is modelled as a total
  function `String → ℚ`; `get(k) ?? 0` / `get(k) || 0` become plain
  application (the source always defaults absent keys to `0`, and `0` is
  falsy in JS, so `!x || x <= 0` is exactly `x ≤ 0`).  `new Map(pairs)`
  (later pairs win) is `mapOfPairs`, and `Array.from(m.values())`
  enumerates the first occurrence of each distinct key in insertion order,
  i.e. `(keys.dedup).map m`.
* Blocks carry their boundary times as minute counts (`ℚ`).  The source
  stores `minutesToTime(t)` strings and re-parses them with
  `timeToMinutes`; since neither function wraps around midnight these are
  exact inverses, so the minute value is the faithful content.  The random
  `id : uuid` field, which carries no scheduling information, is omitted.
* The unbounded `while` loop of the day allocator is modelled by the
  fuel-indexed `dayLoop`, which also reports whether the loop exited by
  its own condition (`true`) or ran out of fuel (`false`).  All invariant
  theorems below hold for every fuel; termination (claim C8) is the
  statement that some fuel suffices.
-/

namespace SkillPlan

/-- Skill priority, from `lib/types` (High, Medium or Low). -/
inductive Priority where
  | High : Priority
  | Medium : Priority
  | Low : Priority
deriving DecidableEq, Repr

/-- The weight table `PRIORITY_WEIGHTS = { High: 3, Medium: 2, Low: 1 }`. -/
def PRIORITY_WEIGHTS : Priority → ℚ
  | .High => 3
  | .Medium => 2
  | .Low => 1

/-- A skill, from `lib/types`. -/
structure Skill where
  id : String
  name : String
  priority : Priority
  estHours : ℚ
deriving DecidableEq, Repr

/-- Plan scope, from `lib/types` (Daily or Monthly). -/
inductive Mode where
  | Daily : Mode
  | Monthly : Mode
deriving DecidableEq, Repr

/-- Lunch configuration, from `lib/types`: a start time string `"HH:MM"`
and a duration in minutes. -/
structure Lunch where
  start : String
  duration : ℚ
deriving DecidableEq, Repr

/-- Settings, from `lib/types`.  Dates are epoch-day numbers (see the
module comment). -/
structure Settings where
  mode : Mode
  dailyHours : ℚ
  startDate : ℤ
  endDate : ℤ
  startTime : String
  endTime : String
  workBlockMins : ℚ
  breakMins : ℚ
  lunch : Option Lunch
deriving DecidableEq, Repr

/-- JS `Number` applied to a digit string (the scheduler only ever parses
the two components of a well-formed `"HH:MM"` string). -/
def parseNum (cs : List Char) : ℚ :=
  cs.foldl (fun acc c => acc * 10 + ((c.toNat - 48 : ℕ) : ℚ)) 0

/-- The source's `timeToMinutes`: `time.split(':').map(Number)` followed by
`hours * 60 + minutes`.  Splitting is done on the underlying character
list.  On input that is not two colon-separated components the source
would produce `NaN`; the model totalises that (unreachable for the
validated inputs) case to `0`. -/
def timeToMinutes (time : String) : ℚ :=
  match (time.data.splitOn ':').map parseNum with
  | [h, m] => h * 60 + m
  | _ => 0

/-- The source's `roundTo5 = Math.round(num / 5) * 5`.  JS `Math.round`
rounds half-way cases toward positive infinity, i.e. it is `⌊x + 1/2⌋`. -/
def roundTo5 (num : ℚ) : ℚ :=
  ((num / 5 + 1 / 2).floor : ℚ) * 5

/-- The source's `getDatesInRange` pushes `startDate`, `startDate + 1`, …
while `currentDate <= endDate`; that loop produces exactly the inclusive
ascending range, written here in closed form. -/
def getDatesInRange (startDate endDate : ℤ) : List ℤ :=
  (List.range (endDate + 1 - startDate).toNat).map (fun (i : ℕ) => startDate + (i : ℤ))

/-- Block type, from `lib/types` (work, break, lunch or buffer; `rest`
stands for the source's `'break'`, a reserved word here). -/
inductive BlockType where
  | work : BlockType
  | rest : BlockType
  | lunch : BlockType
  | buffer : BlockType
deriving DecidableEq, Repr

/-- A schedule block, from `lib/types`.  `stop` is the source's `end`
field (a reserved word here).  Times are minute counts, see the module
comment. -/
structure ScheduleBlock where
  start : ℚ
  stop : ℚ
  type : BlockType
  skillId : Option String := none
  skillName : Option String := none
  minutes : ℚ
  completed : Option Bool := none
deriving DecidableEq, Repr

/-- A scheduled day, from `lib/types`. -/
structure ScheduleDay where
  date : ℤ
  blocks : List ScheduleBlock
deriving DecidableEq, Repr

/-- A summary row, from `lib/types`. -/
structure ScheduleSummary where
  skillId : String
  skillName : String
  minutes : ℚ
  percent : ℚ
deriving DecidableEq, Repr

/-- The three errors `generateSchedule` can throw, in the source's words:
"Date range is invalid. Please select a valid start and end date.",
"End time must be after start time.", and "Could not generate any
schedule. Check your settings. The available time might be too short.". -/
inductive SchedError where
  | invalidRange : SchedError
  | invalidWindow : SchedError
  | emptySchedule : SchedError
deriving DecidableEq, Repr

/-- Map update `m.set(k, v)` on a function-modelled map. -/
def mapSet (m : String → ℚ) (k : String) (v : ℚ) : String → ℚ :=
  fun x => if x = k then v else m x

/-- Map construction `new Map(pairs)`: later pairs overwrite earlier
ones, absent keys read as the JS default, here `0`. -/
def mapOfPairs (ps : List (String × ℚ)) : String → ℚ :=
  ps.foldl (fun m p => mapSet m p.1 p.2) (fun _ => 0)

/-- The lunch block emitted for lunch configuration `l` (both by the
in-loop emission and by the backfill). -/
def lunchBlockOf (l : Lunch) : ScheduleBlock :=
  { start := timeToMinutes l.start,
    stop := timeToMinutes l.start + l.duration,
    type := .lunch, minutes := l.duration }

/-- A work block for `skill` starting at `ct` lasting `d` minutes. -/
def workBlockOf (skill : Skill) (ct d : ℚ) : ScheduleBlock :=
  { start := ct, stop := ct + d, type := .work, skillId := some skill.id,
    skillName := some skill.name, minutes := d, completed := some false }

/-- A break block starting at `ct` lasting `bm` minutes. -/
def breakBlockOf (ct bm : ℚ) : ScheduleBlock :=
  { start := ct, stop := ct + bm, type := .rest, minutes := bm }

/-- A buffer block covering `[a, b)`. -/
def bufferBlockOf (a b : ℚ) : ScheduleBlock :=
  { start := a, stop := b, type := .buffer, minutes := b - a }

/-- State of the per-day `while` loop of `generateSchedule` (its mutable
locals, plus the two outer accumulator maps it writes through to). -/
structure DayState where
  blocks : List ScheduleBlock
  currentTime : ℚ
  queueIndex : ℕ
  dailyAllocation : String → ℚ
  totalAllocatedToday : ℚ
  totalMinutesPerSkill : String → ℚ
  remainingHours : String → ℚ

/-- Out-of-range indexing default (never reached: the queue is non-empty
whenever the loop body runs, since the day is skipped when no skill is
active). -/
def dummySkill : Skill :=
  { id := "", name := "", priority := .Low, estHours := 0 }

/-- The guard `blocks.length === 0 || blocks[blocks.length-1].type !==
'lunch'` of the in-loop lunch emission. -/
def lastNotLunch (blocks : List ScheduleBlock) : Prop :=
  match blocks.getLast? with
  | none => True
  | some b => b.type ≠ BlockType.lunch

instance (blocks : List ScheduleBlock) : Decidable (lastNotLunch blocks) := by
  unfold lastNotLunch
  match blocks.getLast? with
  | none => exact inferInstanceAs (Decidable True)
  | some b => exact inferInstanceAs (Decidable (b.type ≠ BlockType.lunch))

/-- Emission of a work block of `d` minutes for `skill` (shared by the
clipped and the full emission): push the block and update the three maps
and the running total.  The clipped emission leaves `currentTime` in
place (the loop breaks right after); the full emission advances it. -/
def emitWork (s : DayState) (skill : Skill) (d : ℚ) : DayState :=
  { s with
    blocks := s.blocks ++ [workBlockOf skill s.currentTime d],
    dailyAllocation := mapSet s.dailyAllocation skill.id
      (s.dailyAllocation skill.id - d),
    totalAllocatedToday := s.totalAllocatedToday - d,
    totalMinutesPerSkill := mapSet s.totalMinutesPerSkill skill.id
      (s.totalMinutesPerSkill skill.id + d),
    remainingHours := mapSet s.remainingHours skill.id
      (s.remainingHours skill.id - d) }

/-- The skill-serving part of the loop body (`page.tsx` lines 859-893):
round-robin pick, skip or stop when the pick is exhausted, clipped
emission at the window edge (then `break`), or full emission optionally
followed by a break block. -/
def skillStep (workBlockMins breakMins windowEnd : ℚ)
    (queue : List Skill) (s : DayState) : DayState ⊕ DayState :=
  let skill := queue.getD (s.queueIndex % queue.length) dummySkill
  let s := { s with queueIndex := s.queueIndex + 1 }
  let skillTimeLeft := s.dailyAllocation skill.id
  if skillTimeLeft ≤ 0 then
    -- `Array.from(dailyAllocation.values()).every(t => t <= 0)`; the
    -- queue is a permutation of the active skills, whose ids are the
    -- map's keys, so quantifying over the queue is the same test.
    if (queue.map (fun sk => s.dailyAllocation sk.id)).all
        (fun t => decide (t ≤ 0)) then
      .inr s
    else .inl s
  else
    let blockDuration := min workBlockMins skillTimeLeft
    if windowEnd < s.currentTime + blockDuration then
      let remainingWindowTime := roundTo5 (windowEnd - s.currentTime)
      if 0 < remainingWindowTime then
        .inr (emitWork s skill remainingWindowTime)
      else .inr s
    else
      let s1 : DayState := { emitWork s skill blockDuration with
        currentTime := s.currentTime + blockDuration }
      if 0 < breakMins ∧ s1.currentTime + breakMins ≤ windowEnd ∧
          0 < s1.totalAllocatedToday then
        .inl { s1 with
          blocks := s1.blocks ++ [breakBlockOf s1.currentTime breakMins],
          currentTime := s1.currentTime + breakMins }
      else .inl s1

/-- One iteration of the body of the per-day `while` loop
(`page.tsx` lines 840–893): the lunch check first, then `skillStep`.
`Sum.inl` is `continue` (loop again), `Sum.inr` is `break`. -/
def loopBody (lunch : Option Lunch) (workBlockMins breakMins windowEnd : ℚ)
    (queue : List Skill) (s : DayState) : DayState ⊕ DayState :=
  match lunch with
  | some l =>
    if timeToMinutes l.start ≤ s.currentTime ∧
        s.currentTime < timeToMinutes l.start + l.duration then
      .inl
        (let s1 :=
          if lastNotLunch s.blocks then
            { s with blocks := s.blocks ++ [lunchBlockOf l] }
          else s
        { s1 with currentTime := timeToMinutes l.start + l.duration })
    else skillStep workBlockMins breakMins windowEnd queue s
  | none => skillStep workBlockMins breakMins windowEnd queue s

/-- The per-day `while (currentTime < windowEnd && totalAllocatedToday > 0)`
loop, with explicit fuel.  The boolean is `true` when the loop exited by
its own condition or a `break`, `false` when the fuel ran out first. -/
def dayLoop (lunch : Option Lunch) (workBlockMins breakMins windowEnd : ℚ)
    (queue : List Skill) : ℕ → DayState → DayState × Bool
  | 0, s => (s, false)
  | n + 1, s =>
    if s.currentTime < windowEnd ∧ 0 < s.totalAllocatedToday then
      match loopBody lunch workBlockMins breakMins windowEnd queue s with
      | .inl s' => dayLoop lunch workBlockMins breakMins windowEnd queue n s'
      | .inr s' => (s', true)
    else (s, true)

/-- State threaded through the date loop of `generateSchedule`, plus the
flag recording that every day loop run so far exited on its own. -/
structure SchedState where
  generatedSchedule : List ScheduleDay
  dayIndex : ℕ
  remainingHours : String → ℚ
  totalMinutesPerSkill : String → ℚ
  loopsCompleted : Bool

/-- Control outcome of one date iteration: proceed to the next date,
`break` out of the date loop, or throw. -/
inductive Ctl where
  | next : Ctl
  | stop : Ctl
  | fail : SchedError → Ctl
deriving DecidableEq, Repr

/-- The active-skill filter
`skills.filter(s => (remainingHours.get(s.id) ?? 0) > 0)`. -/
def activeSkillsOf (rem : String → ℚ) (skills : List Skill) : List Skill :=
  skills.filter (fun s => 0 < rem s.id)

/-- The weight total
`activeSkills.reduce((sum, s) => sum + PRIORITY_WEIGHTS[s.priority], 0)`. -/
def totalWeightOf (active : List Skill) : ℚ :=
  (active.map (fun s => PRIORITY_WEIGHTS s.priority)).sum

/-- The `dailyAllocation` map: for each active skill,
`roundTo5(Math.min(allocatable * weight / totalWeight, remaining))`. -/
def dailyAllocationOf (allocatable : ℚ) (rem : String → ℚ)
    (active : List Skill) : String → ℚ :=
  mapOfPairs (active.map (fun s =>
    (s.id, roundTo5 (min (allocatable * PRIORITY_WEIGHTS s.priority / totalWeightOf active)
      (rem s.id)))))

/-- Comparator relation of `blocks.sort((a, b) => timeToMinutes(a.start) -
timeToMinutes(b.start))`: ascending block start.  (Block times are stored
as minutes here, so the `timeToMinutes` re-parse is the identity.) -/
def blockLE (a b : ScheduleBlock) : Prop := a.start ≤ b.start

instance : DecidableRel blockLE := fun a b =>
  inferInstanceAs (Decidable (a.start ≤ b.start))

instance : IsTotal ScheduleBlock blockLE :=
  ⟨fun a b => le_total a.start b.start⟩

instance : IsTrans ScheduleBlock blockLE :=
  ⟨fun _ _ _ h h' => le_trans h h'⟩

/-- Comparator relation of the skill-queue sort
`(a, b) => PRIORITY_WEIGHTS[b.priority] - PRIORITY_WEIGHTS[a.priority]`:
descending weight.  JS `Array.prototype.sort` is stable, as is
`List.insertionSort`. -/
def weightGE (a b : Skill) : Prop :=
  PRIORITY_WEIGHTS b.priority ≤ PRIORITY_WEIGHTS a.priority

instance : DecidableRel weightGE := fun a b =>
  inferInstanceAs (Decidable (PRIORITY_WEIGHTS b.priority ≤ PRIORITY_WEIGHTS a.priority))

/-- The round-robin queue: active skills sorted by descending weight
(stable), rotated left by one from the second scheduled day on
(`skillQueue.push(skillQueue.shift()!)`). -/
def skillQueueOf (active : List Skill) (dayIndex : ℕ) : List Skill :=
  let sorted := active.insertionSort weightGE
  if 0 < dayIndex then sorted.drop 1 ++ sorted.take 1 else sorted

/-- Lunch backfill (`page.tsx` lines 896–907): if no lunch block was
emitted but lunch is configured and starts inside the window, append it. -/
def lunchBackfill (lunch : Option Lunch) (windowStart windowEnd : ℚ)
    (blocks : List ScheduleBlock) : List ScheduleBlock :=
  match lunch with
  | some l =>
    if ¬ blocks.any (fun b => b.type = BlockType.lunch) then
      let lunchStart := timeToMinutes l.start
      if windowStart ≤ lunchStart ∧ lunchStart < windowEnd then
        blocks ++ [lunchBlockOf l]
      else blocks
    else blocks
  | none => blocks

/-- One step of the buffer-fill walk: if the next block starts after
`lastBlockEnd` (the second accumulator component), insert a buffer
covering the gap, then push the block and remember its end. -/
def bufferStep (acc : List ScheduleBlock × ℚ) (block : ScheduleBlock) :
    List ScheduleBlock × ℚ :=
  let withGap :=
    if acc.2 < block.start then acc.1 ++ [bufferBlockOf acc.2 block.start]
    else acc.1
  (withGap ++ [block], block.stop)

/-- Buffer fill (`page.tsx` lines 911–931): walk the sorted blocks,
inserting a buffer wherever the next block starts after the previous one
ended, and a trailing buffer up to `windowEnd`. -/
def bufferFill (windowStart windowEnd : ℚ)
    (blocks : List ScheduleBlock) : List ScheduleBlock :=
  let step := blocks.foldl bufferStep ([], windowStart)
  if step.2 < windowEnd then step.1 ++ [bufferBlockOf step.2 windowEnd]
  else step.1

/-- Window start `timeToMinutes(settings.startTime)`. -/
def windowStartOf (settings : Settings) : ℚ :=
  timeToMinutes settings.startTime

/-- Window end `timeToMinutes(settings.endTime)`. -/
def windowEndOf (settings : Settings) : ℚ :=
  timeToMinutes settings.endTime

/-- The allocatable time for one day: `dailyHours * 60` in Daily mode,
the window width minus the lunch duration (when configured) in Monthly
mode. -/
def allocatableOf (settings : Settings) : ℚ :=
  let totalWindowMinutes := windowEndOf settings - windowStartOf settings
  let totalWindowMinutes :=
    match settings.lunch with
    | some l => totalWindowMinutes - l.duration
    | none => totalWindowMinutes
  match settings.mode with
  | .Daily => settings.dailyHours * 60
  | .Monthly => totalWindowMinutes

/-- The loop state at the start of a scheduled day. -/
def dayState0 (skills : List Skill) (settings : Settings) (st : SchedState) :
    DayState :=
  let activeSkills := activeSkillsOf st.remainingHours skills
  let dailyAllocation := dailyAllocationOf (allocatableOf settings)
    st.remainingHours activeSkills
  { blocks := [], currentTime := windowStartOf settings, queueIndex := 0,
    dailyAllocation := dailyAllocation,
    totalAllocatedToday :=
      (((activeSkills.map Skill.id).dedup).map dailyAllocation).sum,
    totalMinutesPerSkill := st.totalMinutesPerSkill,
    remainingHours := st.remainingHours }

/-- The day loop run for one scheduled day. -/
def dayRun (fuel : ℕ) (skills : List Skill) (settings : Settings)
    (st : SchedState) : DayState × Bool :=
  dayLoop settings.lunch settings.workBlockMins settings.breakMins
    (windowEndOf settings)
    (skillQueueOf (activeSkillsOf st.remainingHours skills) st.dayIndex)
    fuel (dayState0 skills settings st)

/-- The blocks pushed for one scheduled day: loop output, lunch
backfill, sort by start, buffer fill. -/
def dayFinalBlocks (fuel : ℕ) (skills : List Skill) (settings : Settings)
    (st : SchedState) : List ScheduleBlock :=
  bufferFill (windowStartOf settings) (windowEndOf settings)
    ((lunchBackfill settings.lunch (windowStartOf settings)
      (windowEndOf settings) (dayRun fuel skills settings st).1.blocks).insertionSort
        blockLE)

/-- The assembler state after pushing one scheduled day. -/
def pushDay (fuel : ℕ) (skills : List Skill) (settings : Settings)
    (date : ℤ) (st : SchedState) : SchedState :=
  { generatedSchedule := st.generatedSchedule ++
      [{ date := date, blocks := dayFinalBlocks fuel skills settings st }],
    dayIndex := st.dayIndex + 1,
    remainingHours := (dayRun fuel skills settings st).1.remainingHours,
    totalMinutesPerSkill := (dayRun fuel skills settings st).1.totalMinutesPerSkill,
    loopsCompleted := st.loopsCompleted && (dayRun fuel skills settings st).2 }

/-- One iteration of the `for (const date of dates)` loop of
`generateSchedule` (`page.tsx` lines 800–936): throw on an invalid
window, `continue` on a day with nothing to allocate (or, unreachably,
zero total weight), `break` when no skill is active any more, and
otherwise run the day allocator and push the day. -/
def processDay (fuel : ℕ) (skills : List Skill) (settings : Settings)
    (date : ℤ) (st : SchedState) : SchedState × Ctl :=
  if windowEndOf settings - windowStartOf settings ≤ 0 then
    (st, .fail .invalidWindow)
  else if allocatableOf settings ≤ 0 then (st, .next)
  else if (activeSkillsOf st.remainingHours skills).isEmpty then (st, .stop)
  else if totalWeightOf (activeSkillsOf st.remainingHours skills) = 0 then
    (st, .next)
  else (pushDay fuel skills settings date st, .next)

/-- The date loop itself; `Ctl.stop` (no active skills left) skips the
remaining dates, a failure aborts with that error. -/
def runDays (fuel : ℕ) (skills : List Skill) (settings : Settings) :
    List ℤ → SchedState → SchedState × Option SchedError
  | [], st => (st, none)
  | d :: ds, st =>
    match processDay fuel skills settings d st with
    | (st', .next) => runDays fuel skills settings ds st'
    | (st', .stop) => (st', none)
    | (st', .fail e) => (st', some e)

/-- Initial assembler state: `remainingHours` maps each skill to
`estHours * 60`, `totalMinutesPerSkill` to `0`. -/
def initState (skills : List Skill) : SchedState :=
  { generatedSchedule := [], dayIndex := 0,
    remainingHours := mapOfPairs (skills.map (fun s => (s.id, s.estHours * 60))),
    totalMinutesPerSkill := mapOfPairs (skills.map (fun s => (s.id, 0))),
    loopsCompleted := true }

/-- The date sequence: `getDatesInRange(parse(startDate), parse(endDate))`
for Monthly mode, `[new Date()]` (the ambient current date) for Daily. -/
def datesOf (today : ℤ) (settings : Settings) : List ℤ :=
  match settings.mode with
  | .Monthly => getDatesInRange settings.startDate settings.endDate
  | .Daily => [today]

/-- The source's `grandTotalMinutes`: the sum of the
`totalMinutesPerSkill` map's values (one per distinct key,
first-insertion order). -/
def grandTotalOf (skills : List Skill) (totals : String → ℚ) : ℚ :=
  (((skills.map Skill.id).dedup).map totals).sum

/-- The summary list: one entry per input skill, in input order. -/
def summaryOf (skills : List Skill) (totals : String → ℚ) : List ScheduleSummary :=
  let grandTotalMinutes := grandTotalOf skills totals
  skills.map (fun skill =>
    { skillId := skill.id, skillName := skill.name,
      minutes := totals skill.id,
      percent := if 0 < grandTotalMinutes
        then totals skill.id / grandTotalMinutes * 100 else 0 })

/-- The entry point `generateSchedule` (`page.tsx` lines 778–952).
`fuel` bounds the per-day `while` loop (see the module comment); `today`
is the ambient current date used by Daily mode. -/
def generateSchedule (fuel : ℕ) (today : ℤ) (skills : List Skill)
    (settings : Settings) :
    Except SchedError (List ScheduleDay × List ScheduleSummary) :=
  let dates := datesOf today settings
  if dates.isEmpty ∧ settings.mode = Mode.Monthly then .error .invalidRange
  else
    match runDays fuel skills settings dates (initState skills) with
    | (_, some e) => .error e
    | (st, none) =>
      let summary := summaryOf skills st.totalMinutesPerSkill
      if st.generatedSchedule.isEmpty then .error .emptySchedule
      else .ok (st.generatedSchedule, summary)

/-- Schedule component of a result (`[]` for an error). -/
def schedOf (r : Except SchedError (List ScheduleDay × List ScheduleSummary)) :
    List ScheduleDay :=
  match r with
  | .ok p => p.1
  | .error _ => []

/-- Summary component of a result (`[]` for an error). -/
def summOf (r : Except SchedError (List ScheduleDay × List ScheduleSummary)) :
    List ScheduleSummary :=
  match r with
  | .ok p => p.2
  | .error _ => []

/-- Whether a result is a success. -/
def isOkB (r : Except SchedError (List ScheduleDay × List ScheduleSummary)) :
    Bool :=
  match r with
  | .ok _ => true
  | .error _ => false

/-! ### Claim-facing predicates -/

/-- The blocks tile `[a, b)` exactly, in list order: the first starts at
`a`, each block's `stop` is the next block's `start`, and the last stops
at `b` (for the empty list, `a = b`).  This is the partition property of
claim C1. -/
def Tiles (a b : ℚ) : List ScheduleBlock → Prop
  | [] => a = b
  | blk :: blks => blk.start = a ∧ Tiles blk.stop b blks

instance tilesDecidable : ∀ (a b : ℚ) (l : List ScheduleBlock), Decidable (Tiles a b l)
  | _, _, [] => inferInstanceAs (Decidable (_ = _))
  | _, b, blk :: blks =>
    have : Decidable (Tiles blk.stop b blks) := tilesDecidable blk.stop b blks
    inferInstanceAs (Decidable (_ ∧ _))

/-- Total minutes of work blocks carrying `id` in a block list. -/
def workMinutes (blocks : List ScheduleBlock) (id : String) : ℚ :=
  ((blocks.filter (fun b =>
    decide (b.type = BlockType.work) && decide (b.skillId = some id))).map
      ScheduleBlock.minutes).sum

/-- Total minutes of work blocks carrying `id` across a schedule. -/
def schedWorkMinutes (days : List ScheduleDay) (id : String) : ℚ :=
  (days.map (fun d => workMinutes d.blocks id)).sum

/-- A rational is an integer multiple of five. -/
def IsMult5 (q : ℚ) : Prop := ∃ z : ℤ, q = 5 * z


/-- Priority weight as the spec words it: High 3, Medium 2, Low 1
(spelled out independently of the source's `PRIORITY_WEIGHTS` table). -/
def specWeight : Priority → ℚ
  | .High => 3
  | .Medium => 2
  | .Low => 1

/-- Scenario A input: one skill with priority High and `estHours = 1`. -/
def scenarioASkills : List Skill :=
  [{ id := "s1", name := "A", priority := .High, estHours := 1 }]

/-- Scenario A settings: Daily mode, `dailyHours = 1`, window
09:00–17:00, `workBlockMins = 50`, `breakMins = 10`, no lunch. -/
def scenarioASettings : Settings :=
  { mode := .Daily, dailyHours := 1, startDate := 0, endDate := 0,
    startTime := "09:00", endTime := "17:00", workBlockMins := 50,
    breakMins := 10, lunch := none }

/-- The ledger invariant: relative to the values at the start of the day
(allocation map `A0`, totals map `T0`, remaining map `R0`), every key's
totals and remaining minutes moved in lockstep by the amount the
allocation decreased, the allocation never dropped below `-5/2`, and
exhausted keys were never touched. -/
def Ledger (A0 T0 R0 : String → ℚ) (s : DayState) : Prop :=
  ∀ id, s.totalMinutesPerSkill id = T0 id + (A0 id - s.dailyAllocation id) ∧
    s.remainingHours id = R0 id - (A0 id - s.dailyAllocation id) ∧
    -(5 / 2 : ℚ) < s.dailyAllocation id ∧
    (A0 id ≤ 0 → s.dailyAllocation id = A0 id)

/-- Accounting invariant: the totals map always equals its base value
plus the work minutes of the blocks emitted so far, key by key. -/
def BlocksLedger (T0 : String → ℚ) (s : DayState) : Prop :=
  ∀ id, s.totalMinutesPerSkill id = T0 id + workMinutes s.blocks id

/-- With a nonnegative work-block length every emission is nonnegative,
so the totals map never decreases. -/
def TotalsMono (T0 : String → ℚ) (s : DayState) : Prop :=
  ∀ id, T0 id ≤ s.totalMinutesPerSkill id

/-- Cross-day invariant: for every input skill, the accumulated totals
equal the work minutes recorded in the pushed days, equal
`estHours * 60` minus the remaining budget, and the remaining budget
never drops to `-5` or below. -/
def SchedInv (skills : List Skill) (st : SchedState) : Prop :=
  ∀ sk ∈ skills,
    st.totalMinutesPerSkill sk.id =
      schedWorkMinutes st.generatedSchedule sk.id ∧
    st.totalMinutesPerSkill sk.id = sk.estHours * 60 - st.remainingHours sk.id ∧
    -5 < st.remainingHours sk.id

/-- Accounting invariant: totals match the work minutes in the pushed
days. -/
def SAcc (skills : List Skill) (st : SchedState) : Prop :=
  ∀ sk ∈ skills,
    st.totalMinutesPerSkill sk.id = schedWorkMinutes st.generatedSchedule sk.id

/-- Nonnegativity invariant for the totals map. -/
def SMono (st : SchedState) : Prop :=
  ∀ id, 0 ≤ st.totalMinutesPerSkill id

/-- Loop invariant for the lunch block: either none has been emitted, or
exactly the canonical one has and the cursor has passed the lunch end. -/
def LunchInv (l : Lunch) (s : DayState) : Prop :=
  s.blocks.filter (fun b => decide (b.type = BlockType.lunch)) = [] ∨
  (s.blocks.filter (fun b => decide (b.type = BlockType.lunch)) = [lunchBlockOf l] ∧
    timeToMinutes l.start + l.duration ≤ s.currentTime)

/-- Loop invariant: every emitted block has positive length and its
`minutes` field is exactly its span. -/
def BlocksWF (s : DayState) : Prop :=
  ∀ b ∈ s.blocks, 0 < b.minutes ∧ b.minutes = b.stop - b.start

/-- Input on which the partition invariant fails: one High skill with
ample hours, Daily mode with eight hours, 45-minute work blocks, no
breaks, lunch at 13:00 for 60 minutes. -/
def overlapSkills : List Skill :=
  [{ id := "s1", name := "A", priority := .High, estHours := 100 }]

/-- Settings of the overlap counterexample. -/
def overlapSettings : Settings :=
  { mode := .Daily, dailyHours := 8, startDate := 0, endDate := 0,
    startTime := "09:00", endTime := "17:00", workBlockMins := 45,
    breakMins := 0, lunch := some { start := "13:00", duration := 60 } }

/-- Loop invariant behind the amended partition property (no lunch,
five-minute aligned inputs): the blocks emitted so far tile the interval
from the window start up to the cursor, in order; the cursor stays inside
the window and on the five-minute grid relative to the window start;
every allocation entry is a multiple of five; and every block runs
forward. -/
def TileInv (ws we : ℚ) (s : DayState) : Prop :=
  Tiles ws s.currentTime s.blocks ∧ s.currentTime ≤ we ∧
  IsMult5 (s.currentTime - ws) ∧
  (∀ id, IsMult5 (s.dailyAllocation id)) ∧
  (∀ b ∈ s.blocks, b.start ≤ b.stop)

/-- Post-loop shape: the loop's blocks tile the window start up to some
point `X` at or before the window end, and run forward. -/
def TileOut (ws we : ℚ) (s : DayState) : Prop :=
  ∃ X, Tiles ws X s.blocks ∧ X ≤ we ∧ ∀ b ∈ s.blocks, b.start ≤ b.stop

/-- Emission potential of one allocation entry: with work-block length
`w`, an allocation of `a` minutes supports at most `floor (a / w) + 1`
work-block emissions before it is exhausted. -/
def embound (w a : ℚ) : ℕ :=
  if a ≤ 0 then 0 else (⌊a / w⌋).toNat + 1

/-- Emission potential of the whole queue: the sum of the per-entry
potentials.  Every full work-block emission strictly decreases it. -/
def eMeasure (w : ℚ) (queue : List Skill) (alloc : String → ℚ) : ℕ :=
  (queue.map (fun sk => embound w (alloc sk.id))).sum

/-- Lunch potential: `1` while a configured lunch window still lies
ahead of (or around) the cursor, `0` once the cursor has passed it.  The
cursor never moves backwards, and the lunch branch jumps it to the lunch
end, so this component decreases exactly at the lunch step. -/
def lMeasure (lunch : Option Lunch) (ct : ℚ) : ℕ :=
  match lunch with
  | some l => if ct < timeToMinutes l.start + l.duration then 1 else 0
  | none => 0

/-- Round-robin skip potential: the least offset `k` below the queue
length (via `Nat.find`) such that the queue entry `k` positions after
the cursor index has a positive allocation; `0` when every entry is
exhausted.  Each skip-and-continue step decreases it by one. -/
def dMeasure (alloc : String → ℚ) (queue : List Skill) (i : ℕ) : ℕ :=
  if h : ∃ k, k < queue.length ∧
      0 < alloc ((queue.getD ((i + k) % queue.length) dummySkill).id)
  then Nat.find h else 0

/-- Termination measure of the day loop: lexicographic combination of
the lunch potential, the emission potential, and the skip potential,
packed into one natural number. -/
def loopMeasure (lunch : Option Lunch) (w : ℚ) (queue : List Skill)
    (s : DayState) : ℕ :=
  (lMeasure lunch s.currentTime + 2 * eMeasure w queue s.dailyAllocation) *
    (queue.length + 1) + dMeasure s.dailyAllocation queue s.queueIndex

/-! ### Basic lemmas about the arithmetic helpers -/

theorem ratFloor_eq_intFloor (q : ℚ) : q.floor = ⌊q⌋ :=
  le_antisymm (Int.le_floor.mpr (Rat.le_floor.mp (le_refl _)))
    (Rat.le_floor.mpr (Int.floor_le q))

theorem roundTo5_def' (q : ℚ) : roundTo5 q = ((⌊q / 5 + 1 / 2⌋ : ℤ) : ℚ) * 5 := by
  unfold roundTo5
  rw [ratFloor_eq_intFloor]

theorem roundTo5_mult5 (q : ℚ) : IsMult5 (roundTo5 q) :=
  ⟨⌊q / 5 + 1 / 2⌋, by rw [roundTo5_def']; ring⟩

theorem roundTo5_le (q : ℚ) : roundTo5 q ≤ q + 5 / 2 := by
  rw [roundTo5_def']
  have h := Int.floor_le (q / 5 + 1 / 2)
  nlinarith

theorem lt_roundTo5 (q : ℚ) : q - 5 / 2 < roundTo5 q := by
  rw [roundTo5_def']
  have h := Int.lt_floor_add_one (q / 5 + 1 / 2)
  nlinarith

theorem roundTo5_nonneg {q : ℚ} (h : 0 ≤ q) : 0 ≤ roundTo5 q := by
  rw [roundTo5_def']
  have h2 : (0 : ℤ) ≤ ⌊q / 5 + 1 / 2⌋ := by
    apply Int.le_floor.mpr
    push_cast
    linarith
  have h3 : (0 : ℚ) ≤ (⌊q / 5 + 1 / 2⌋ : ℚ) := by exact_mod_cast h2
  linarith

theorem roundTo5_eq_self {q : ℚ} (h : IsMult5 q) : roundTo5 q = q := by
  obtain ⟨z, rfl⟩ := h
  rw [roundTo5_def']
  have h1 : (5 : ℚ) * z / 5 + 1 / 2 = (z : ℚ) + 1 / 2 := by ring
  rw [h1]
  have h2 : ⌊(z : ℚ) + 1 / 2⌋ = z + ⌊(1 : ℚ) / 2⌋ := by
    rw [add_comm, Int.floor_add_int, add_comm]
  have h3 : ⌊(1 : ℚ) / 2⌋ = 0 := by norm_num [Int.floor_eq_iff]
  rw [h2, h3]
  push_cast
  ring

theorem IsMult5.add {p q : ℚ} (hp : IsMult5 p) (hq : IsMult5 q) :
    IsMult5 (p + q) := by
  obtain ⟨a, rfl⟩ := hp
  obtain ⟨b, rfl⟩ := hq
  exact ⟨a + b, by push_cast; ring⟩

theorem IsMult5.sub {p q : ℚ} (hp : IsMult5 p) (hq : IsMult5 q) :
    IsMult5 (p - q) := by
  obtain ⟨a, rfl⟩ := hp
  obtain ⟨b, rfl⟩ := hq
  exact ⟨a - b, by push_cast; ring⟩

theorem IsMult5.zero : IsMult5 0 := ⟨0, by norm_num⟩

theorem IsMult5.five_le {q : ℚ} (h : IsMult5 q) (hpos : 0 < q) : 5 ≤ q := by
  obtain ⟨z, rfl⟩ := h
  have hz : 0 < z := by
    by_contra hc
    push_neg at hc
    have : (z : ℚ) ≤ 0 := by exact_mod_cast hc
    nlinarith
  have : (1 : ℤ) ≤ z := hz
  have : (1 : ℚ) ≤ (z : ℚ) := by exact_mod_cast this
  nlinarith

theorem IsMult5.min {p q : ℚ} (hp : IsMult5 p) (hq : IsMult5 q) :
    IsMult5 (min p q) := by
  rcases le_total p q with h | h
  · rwa [min_eq_left h]
  · rwa [min_eq_right h]

/-! ### Lemmas about the function-modelled maps -/

@[simp]
theorem mapSet_same (m : String → ℚ) (k : String) (v : ℚ) :
    mapSet m k v k = v := by
  simp [mapSet]

theorem mapSet_other (m : String → ℚ) {k x : String} (v : ℚ) (h : x ≠ k) :
    mapSet m k v x = m x := by
  simp [mapSet, h]

theorem mapOfPairs_spec (ps : List (String × ℚ)) (k : String) :
    mapOfPairs ps k = 0 ∨ ∃ p ∈ ps, p.1 = k ∧ mapOfPairs ps k = p.2 := by
  unfold mapOfPairs
  induction ps using List.reverseRecOn with
  | nil => left; rfl
  | append_singleton ps p ih =>
    rw [List.foldl_append, List.foldl_cons, List.foldl_nil]
    by_cases h : k = p.1
    · right
      exact ⟨p, by simp, h.symm, by simp [mapSet, h]⟩
    · rw [mapSet_other _ _ h]
      rcases ih with h0 | ⟨p', hmem, hk, hv⟩
      · left; exact h0
      · right; exact ⟨p', by simp [hmem], hk, hv⟩

theorem mapOfPairs_not_mem (ps : List (String × ℚ)) {k : String}
    (h : k ∉ ps.map Prod.fst) : mapOfPairs ps k = 0 := by
  unfold mapOfPairs
  induction ps using List.reverseRecOn with
  | nil => rfl
  | append_singleton ps p ih =>
    rw [List.foldl_append, List.foldl_cons, List.foldl_nil]
    simp only [List.map_append, List.map_cons, List.map_nil, List.mem_append,
      List.mem_singleton] at h
    push_neg at h
    rw [mapSet_other _ _ h.2]
    exact ih h.1

theorem mapOfPairs_lookup {ps : List (String × ℚ)} {k : String} {v : ℚ}
    (hnd : (ps.map Prod.fst).Nodup) (hmem : (k, v) ∈ ps) :
    mapOfPairs ps k = v := by
  unfold mapOfPairs
  induction ps using List.reverseRecOn with
  | nil => cases hmem
  | append_singleton ps p ih =>
    rw [List.foldl_append, List.foldl_cons, List.foldl_nil]
    simp only [List.map_append, List.map_cons, List.map_nil] at hnd
    have hnd' := List.Nodup.of_append_left hnd
    rcases List.mem_append.mp hmem with hin | hlast
    · have hk : k ∈ ps.map Prod.fst := List.mem_map.mpr ⟨(k, v), hin, rfl⟩
      have hdis := (List.nodup_append.mp hnd).2.2
      have hne : k ≠ p.1 := by
        intro he
        exact hdis hk (by simp [he])
      rw [mapSet_other _ _ hne]
      exact ih hnd' hin
    · have hp : (k, v) = p := by simpa using hlast
      rw [← hp]
      simp [mapSet]

/-! ### Tiling lemmas -/

theorem Tiles.append {a b c : ℚ} {l m : List ScheduleBlock}
    (hl : Tiles a b l) (hm : Tiles b c m) : Tiles a c (l ++ m) := by
  induction l generalizing a with
  | nil =>
    have : a = b := hl
    subst this
    simpa using hm
  | cons blk blks ih =>
    obtain ⟨h1, h2⟩ := hl
    exact ⟨h1, ih h2⟩

theorem Tiles.le_start {a b : ℚ} {l : List ScheduleBlock} (h : Tiles a b l)
    (hwf : ∀ blk ∈ l, blk.start ≤ blk.stop) :
    ∀ x ∈ l, a ≤ x.start := by
  induction l generalizing a with
  | nil => intro x hx; cases hx
  | cons blk blks ih =>
    obtain ⟨h1, h2⟩ := h
    intro x hx
    rcases List.mem_cons.mp hx with rfl | hx'
    · exact le_of_eq h1.symm
    · have hss : blk.start ≤ blk.stop := hwf blk (by simp)
      have := ih h2 (fun b hb => hwf b (by simp [hb])) x hx'
      calc a = blk.start := h1.symm
        _ ≤ blk.stop := hss
        _ ≤ x.start := this

theorem Tiles.sorted {a b : ℚ} {l : List ScheduleBlock} (h : Tiles a b l)
    (hwf : ∀ blk ∈ l, blk.start ≤ blk.stop) :
    List.Sorted blockLE l := by
  induction l generalizing a with
  | nil => exact List.sorted_nil
  | cons blk blks ih =>
    obtain ⟨h1, h2⟩ := h
    refine List.sorted_cons.mpr ⟨?_, ih h2 (fun x hx => hwf x (by simp [hx]))⟩
    intro x hx
    have hss : blk.start ≤ blk.stop := hwf blk (by simp)
    exact le_trans hss (Tiles.le_start h2 (fun y hy => hwf y (by simp [hy])) x hx)

/-! ### The generic loop recursion principle -/

theorem dayLoop_rec {lunch : Option Lunch} {wbm bm we : ℚ} {queue : List Skill}
    (P Q : DayState → Prop)
    (hPQ : ∀ s, P s → Q s)
    (hinl : ∀ s s', s.currentTime < we → 0 < s.totalAllocatedToday →
      loopBody lunch wbm bm we queue s = .inl s' → P s → P s')
    (hinr : ∀ s s', s.currentTime < we → 0 < s.totalAllocatedToday →
      loopBody lunch wbm bm we queue s = .inr s' → P s → Q s') :
    ∀ n s, P s → Q (dayLoop lunch wbm bm we queue n s).1 := by
  intro n
  induction n with
  | zero => intro s hP; exact hPQ s hP
  | succ n ih =>
    intro s hP
    by_cases hg : s.currentTime < we ∧ 0 < s.totalAllocatedToday
    · have heq : dayLoop lunch wbm bm we queue (n + 1) s =
        (match loopBody lunch wbm bm we queue s with
         | .inl s' => dayLoop lunch wbm bm we queue n s'
         | .inr s' => (s', true)) := by
        simp [dayLoop, hg]
      rw [heq]
      cases hlb : loopBody lunch wbm bm we queue s with
      | inl s' => exact ih s' (hinl s s' hg.1 hg.2 hlb hP)
      | inr s' => exact hinr s s' hg.1 hg.2 hlb hP
    · have heq : dayLoop lunch wbm bm we queue (n + 1) s = (s, true) := by
        simp only [dayLoop, if_neg hg]
      rw [heq]
      exact hPQ s hP

/-! ### Case analysis of one loop iteration -/

theorem skillStep_elim {wbm bm we : ℚ} {queue : List Skill} {s : DayState}
    {motive : DayState ⊕ DayState → Prop}
    (skipStop : ∀ skill, skill = queue.getD (s.queueIndex % queue.length) dummySkill →
      s.dailyAllocation skill.id ≤ 0 →
      (queue.map (fun sk => s.dailyAllocation sk.id)).all
        (fun t => decide (t ≤ 0)) = true →
      motive (.inr { s with queueIndex := s.queueIndex + 1 }))
    (skipCont : ∀ skill, skill = queue.getD (s.queueIndex % queue.length) dummySkill →
      s.dailyAllocation skill.id ≤ 0 →
      ¬ ((queue.map (fun sk => s.dailyAllocation sk.id)).all
        (fun t => decide (t ≤ 0)) = true) →
      motive (.inl { s with queueIndex := s.queueIndex + 1 }))
    (clipEmit : ∀ skill, skill = queue.getD (s.queueIndex % queue.length) dummySkill →
      0 < s.dailyAllocation skill.id →
      we < s.currentTime + min wbm (s.dailyAllocation skill.id) →
      0 < roundTo5 (we - s.currentTime) →
      motive (.inr (emitWork { s with queueIndex := s.queueIndex + 1 } skill
        (roundTo5 (we - s.currentTime)))))
    (clipZero : ∀ skill, skill = queue.getD (s.queueIndex % queue.length) dummySkill →
      0 < s.dailyAllocation skill.id →
      we < s.currentTime + min wbm (s.dailyAllocation skill.id) →
      roundTo5 (we - s.currentTime) ≤ 0 →
      motive (.inr { s with queueIndex := s.queueIndex + 1 }))
    (fullBreak : ∀ skill, skill = queue.getD (s.queueIndex % queue.length) dummySkill →
      0 < s.dailyAllocation skill.id →
      s.currentTime + min wbm (s.dailyAllocation skill.id) ≤ we →
      0 < bm →
      s.currentTime + min wbm (s.dailyAllocation skill.id) + bm ≤ we →
      0 < s.totalAllocatedToday - min wbm (s.dailyAllocation skill.id) →
      motive (.inl
        (let s1 : DayState := { emitWork { s with queueIndex := s.queueIndex + 1 }
          skill (min wbm (s.dailyAllocation skill.id)) with
          currentTime := s.currentTime + min wbm (s.dailyAllocation skill.id) };
        { s1 with
          blocks := s1.blocks ++ [breakBlockOf s1.currentTime bm],
          currentTime := s1.currentTime + bm })))
    (fullOnly : ∀ skill, skill = queue.getD (s.queueIndex % queue.length) dummySkill →
      0 < s.dailyAllocation skill.id →
      s.currentTime + min wbm (s.dailyAllocation skill.id) ≤ we →
      ¬ (0 < bm ∧
        s.currentTime + min wbm (s.dailyAllocation skill.id) + bm ≤ we ∧
        0 < s.totalAllocatedToday - min wbm (s.dailyAllocation skill.id)) →
      motive (.inl { emitWork { s with queueIndex := s.queueIndex + 1 }
          skill (min wbm (s.dailyAllocation skill.id)) with
        currentTime := s.currentTime + min wbm (s.dailyAllocation skill.id) })) :
    motive (skillStep wbm bm we queue s) := by
  unfold skillStep
  dsimp only
  split
  · next hskip =>
    split
    · next hall => exact skipStop _ rfl hskip hall
    · next hall => exact skipCont _ rfl hskip hall
  · next hskip =>
    push_neg at hskip
    split
    · next hclip =>
      split
      · next hpos => exact clipEmit _ rfl hskip hclip hpos
      · next hpos =>
        push_neg at hpos
        exact clipZero _ rfl hskip hclip hpos
    · next hclip =>
      push_neg at hclip
      split
      · next hbrk => exact fullBreak _ rfl hskip hclip hbrk.1 hbrk.2.1 hbrk.2.2
      · next hbrk => exact fullOnly _ rfl hskip hclip hbrk

theorem loopBody_elim {lunch : Option Lunch} {wbm bm we : ℚ}
    {queue : List Skill} {s : DayState}
    {motive : DayState ⊕ DayState → Prop}
    (lunchEmit : ∀ l, lunch = some l →
      timeToMinutes l.start ≤ s.currentTime →
      s.currentTime < timeToMinutes l.start + l.duration →
      lastNotLunch s.blocks →
      motive (.inl { s with
        blocks := s.blocks ++ [lunchBlockOf l],
        currentTime := timeToMinutes l.start + l.duration }))
    (lunchSkip : ∀ l, lunch = some l →
      timeToMinutes l.start ≤ s.currentTime →
      s.currentTime < timeToMinutes l.start + l.duration →
      ¬ lastNotLunch s.blocks →
      motive (.inl { s with currentTime := timeToMinutes l.start + l.duration }))
    (skillCase : motive (skillStep wbm bm we queue s)) :
    motive (loopBody lunch wbm bm we queue s) := by
  unfold loopBody
  cases lunch with
  | some l =>
    dsimp only
    split
    · next hwin =>
      split
      · next hlast => exact lunchEmit l rfl hwin.1 hwin.2 hlast
      · next hlast => exact lunchSkip l rfl hwin.1 hwin.2 hlast
    · next hwin => exact skillCase
  | none => exact skillCase

/-! ### Lookup lemmas for skill-keyed maps -/

theorem map_fst_pairs (f : Skill → ℚ) (skills : List Skill) :
    (skills.map (fun s => (s.id, f s))).map Prod.fst = skills.map Skill.id := by
  rw [List.map_map]
  rfl

theorem mapOfPairs_map_lookup {f : Skill → ℚ} {skills : List Skill}
    (hnd : (skills.map Skill.id).Nodup) {sk : Skill} (h : sk ∈ skills) :
    mapOfPairs (skills.map (fun s => (s.id, f s))) sk.id = f sk := by
  apply mapOfPairs_lookup
  · rw [map_fst_pairs]
    exact hnd
  · exact List.mem_map.mpr ⟨sk, h, rfl⟩

theorem activeSkills_map_id_nodup {rem : String → ℚ} {skills : List Skill}
    (hnd : (skills.map Skill.id).Nodup) :
    ((activeSkillsOf rem skills).map Skill.id).Nodup := by
  unfold activeSkillsOf
  exact List.Nodup.sublist (List.Sublist.map Skill.id (List.filter_sublist skills)) hnd

/-! ### Claim C4: the per-day proportional allocation formula -/

/-- C4.  For every scheduled day, each active skill's daily target
minutes equal `roundTo5(min(allocatableTimeForDay * weight / totalWeight,
remaining minutes))`, where weight is High = 3, Medium = 2, Low = 1 and
`totalWeight` is the sum of the weights of the skills with remaining
minutes > 0.  (`dailyAllocationOf` together with `activeSkillsOf` is
exactly the map `processDay` builds for each scheduled day; skill ids
are unique by the data model.) -/
theorem allocation_formula (allocatable : ℚ) (rem : String → ℚ)
    (skills : List Skill) (hnd : (skills.map Skill.id).Nodup) :
    ∀ sk ∈ activeSkillsOf rem skills,
      dailyAllocationOf allocatable rem (activeSkillsOf rem skills) sk.id =
        roundTo5 (min
          (allocatable * specWeight sk.priority /
            ((activeSkillsOf rem skills).map (fun t => specWeight t.priority)).sum)
          (rem sk.id)) := by
  intro sk hsk
  unfold dailyAllocationOf
  rw [mapOfPairs_map_lookup (activeSkills_map_id_nodup hnd) hsk]
  have hw : ∀ p : Priority, PRIORITY_WEIGHTS p = specWeight p := by
    intro p
    cases p <;> rfl
  unfold totalWeightOf
  simp only [hw]

/-- Witness for C4 at a concrete input: two active skills, one High and
one Low, allocatable 240 minutes, ample remaining time. -/
theorem allocation_formula_witness :
    (([{ id := "a", name := "A", priority := Priority.High, estHours := 10 },
       { id := "b", name := "B", priority := Priority.Low, estHours := 10 }] :
        List Skill).map Skill.id).Nodup ∧
    ({ id := "a", name := "A", priority := Priority.High, estHours := 10 } : Skill) ∈
      activeSkillsOf (mapOfPairs [("a", 600), ("b", 600)])
        [{ id := "a", name := "A", priority := Priority.High, estHours := 10 },
         { id := "b", name := "B", priority := Priority.Low, estHours := 10 }] ∧
    dailyAllocationOf 240 (mapOfPairs [("a", 600), ("b", 600)])
      (activeSkillsOf (mapOfPairs [("a", 600), ("b", 600)])
        [{ id := "a", name := "A", priority := Priority.High, estHours := 10 },
         { id := "b", name := "B", priority := Priority.Low, estHours := 10 }]) "a" =
      roundTo5 (min
        (240 * specWeight Priority.High /
          (((activeSkillsOf (mapOfPairs [("a", 600), ("b", 600)])
            [{ id := "a", name := "A", priority := Priority.High, estHours := 10 },
             { id := "b", name := "B", priority := Priority.Low, estHours := 10 }]).map
              (fun t => specWeight t.priority)).sum))
        (mapOfPairs [("a", 600), ("b", 600)] "a")) := by
  refine ⟨by decide, by decide, ?_⟩
  exact allocation_formula 240 (mapOfPairs [("a", 600), ("b", 600)])
    [{ id := "a", name := "A", priority := Priority.High, estHours := 10 },
     { id := "b", name := "B", priority := Priority.Low, estHours := 10 }]
    (by decide)
    { id := "a", name := "A", priority := Priority.High, estHours := 10 }
    (by decide)

/-! ### Claim C3: Scenario A (one High skill, eight-hour window, one daily hour) -/

unseal Rat.add Rat.mul Rat.sub Rat.inv in
/-- C3, counterexample.  The claim asserts the returned single day holds
exactly one 50-minute work block with the remaining window covered by
buffer blocks only; in fact the day also holds a break block and a
second, 10-minute work block (the daily allocation is 60 minutes, not
50), so the claimed shape is false. -/
theorem scenarioA_counterexample :
    ¬ (∀ day ∈ schedOf (generateSchedule 200 0 scenarioASkills scenarioASettings),
        (day.blocks.filter (fun b => decide (b.type = BlockType.work))).length = 1 ∧
        ∀ b ∈ day.blocks, b.type ≠ BlockType.work → b.type = BlockType.buffer) := by
  decide

unseal Rat.add Rat.mul Rat.sub Rat.inv in
/-- C3, amended.  With exactly one High skill of `estHours = 1`, Daily
mode with `dailyHours = 1`, window 09:00–17:00, `workBlockMins = 50`,
`breakMins = 10` and no lunch, `generateSchedule` returns a single day
holding a 50-minute work block 09:00–09:50, a 10-minute break
09:50–10:00, a second 10-minute work block 10:00–10:10 (the allocation
is the full 60 daily minutes), and one buffer block 10:10–17:00; the
summary assigns the skill 60 minutes at 100 percent. -/
theorem scenarioA_amended :
    isOkB (generateSchedule 200 0 scenarioASkills scenarioASettings) = true ∧
    schedOf (generateSchedule 200 0 scenarioASkills scenarioASettings) =
      [{ date := 0, blocks := [
        { start := 540, stop := 590, type := .work, skillId := some "s1",
          skillName := some "A", minutes := 50, completed := some false },
        { start := 590, stop := 600, type := .rest, minutes := 10 },
        { start := 600, stop := 610, type := .work, skillId := some "s1",
          skillName := some "A", minutes := 10, completed := some false },
        { start := 610, stop := 1020, type := .buffer, minutes := 410 }] }] ∧
    summOf (generateSchedule 200 0 scenarioASkills scenarioASettings) =
      [{ skillId := "s1", skillName := "A", minutes := 60, percent := 100 }] := by
  refine ⟨by decide, by decide, by decide⟩

/-! ### Claim C5: the error taxonomy -/

theorem getDatesInRange_eq_nil {s e : ℤ} (h : e < s) :
    getDatesInRange s e = [] := by
  unfold getDatesInRange
  have : (e + 1 - s).toNat = 0 := Int.toNat_eq_zero.mpr (by omega)
  rw [this]
  rfl

theorem getDatesInRange_ne_nil {s e : ℤ} (h : s ≤ e) :
    getDatesInRange s e ≠ [] := by
  unfold getDatesInRange
  intro hc
  have hlen := congrArg List.length hc
  rw [List.length_map, List.length_range] at hlen
  have h0 : (e + 1 - s).toNat = 0 := by simpa using hlen
  omega

theorem processDay_fail {settings : Settings}
    (h : timeToMinutes settings.endTime - timeToMinutes settings.startTime ≤ 0)
    (fuel : ℕ) (skills : List Skill) (d : ℤ) (st : SchedState) :
    processDay fuel skills settings d st = (st, .fail .invalidWindow) := by
  unfold processDay windowStartOf windowEndOf
  rw [if_pos h]

theorem processDay_no_fail {settings : Settings}
    (h : ¬ (timeToMinutes settings.endTime - timeToMinutes settings.startTime ≤ 0))
    (fuel : ℕ) (skills : List Skill) (d : ℤ) (st : SchedState) :
    (processDay fuel skills settings d st).2 = Ctl.next ∨
    (processDay fuel skills settings d st).2 = Ctl.stop := by
  unfold processDay windowStartOf windowEndOf
  rw [if_neg h]
  split_ifs <;> simp

theorem runDays_no_fail {settings : Settings}
    (h : ¬ (timeToMinutes settings.endTime - timeToMinutes settings.startTime ≤ 0))
    (fuel : ℕ) (skills : List Skill) :
    ∀ (dates : List ℤ) (st : SchedState),
      (runDays fuel skills settings dates st).2 = none := by
  intro dates
  induction dates with
  | nil => intro st; rfl
  | cons d ds ih =>
    intro st
    unfold runDays
    rcases hpd : processDay fuel skills settings d st with ⟨st', ctl⟩
    have := processDay_no_fail h fuel skills d st
    rw [hpd] at this
    rcases this with hc | hc <;> simp only at hc <;> subst hc
    · exact ih st'
    · rfl

theorem runDays_fail_window {settings : Settings}
    (h : timeToMinutes settings.endTime - timeToMinutes settings.startTime ≤ 0)
    (fuel : ℕ) (skills : List Skill) (d : ℤ) (ds : List ℤ) (st : SchedState) :
    runDays fuel skills settings (d :: ds) st = (st, some .invalidWindow) := by
  unfold runDays
  rw [processDay_fail h]

/-- C5.  The call is all-or-nothing.  It throws `InvalidRangeError` when
the mode is Monthly and `endDate < startDate`; it throws
`InvalidWindowError` when `endTime <= startTime` and the date range
permits at least one day; when range and window are valid it throws
`EmptyScheduleError` exactly when no day produced any output (the
accumulated schedule is empty); and a success always carries a non-empty
schedule together with a summary entry for every input skill — never a
partial result. -/
theorem error_taxonomy (fuel : ℕ) (today : ℤ) (skills : List Skill)
    (settings : Settings) :
    (settings.mode = Mode.Monthly → settings.endDate < settings.startDate →
      generateSchedule fuel today skills settings = .error .invalidRange) ∧
    ((settings.mode = Mode.Daily ∨ settings.startDate ≤ settings.endDate) →
      timeToMinutes settings.endTime ≤ timeToMinutes settings.startTime →
      generateSchedule fuel today skills settings = .error .invalidWindow) ∧
    (¬ (settings.mode = Mode.Monthly ∧ settings.endDate < settings.startDate) →
      timeToMinutes settings.startTime < timeToMinutes settings.endTime →
      (generateSchedule fuel today skills settings = .error .emptySchedule ↔
        (runDays fuel skills settings (datesOf today settings)
          (initState skills)).1.generatedSchedule = [])) ∧
    (∀ sched summ,
      generateSchedule fuel today skills settings = .ok (sched, summ) →
      sched ≠ [] ∧ summ.length = skills.length) := by
  have hdates_ne : (settings.mode = Mode.Daily ∨ settings.startDate ≤ settings.endDate) →
      datesOf today settings ≠ [] := by
    intro hr
    unfold datesOf
    cases hm : settings.mode with
    | Daily => simp
    | Monthly =>
      rcases hr with hd | hle
      · rw [hm] at hd; cases hd
      · exact getDatesInRange_ne_nil hle
  refine ⟨?_, ?_, ?_, ?_⟩
  · intro hm hlt
    unfold generateSchedule
    have hempty : datesOf today settings = [] := by
      unfold datesOf
      rw [hm]
      exact getDatesInRange_eq_nil hlt
    rw [if_pos (by simp [hempty, hm])]
  · intro hr hwin
    unfold generateSchedule
    obtain ⟨d, ds, hcons⟩ := List.exists_cons_of_ne_nil (hdates_ne hr)
    rw [hcons]
    rw [if_neg (by simp)]
    rw [runDays_fail_window (by linarith) fuel skills d ds (initState skills)]
  · intro hnr hwin
    unfold generateSchedule
    have hne : datesOf today settings ≠ [] := by
      apply hdates_ne
      cases hm : settings.mode with
      | Daily => exact Or.inl rfl
      | Monthly =>
        right
        by_contra hlt
        exact hnr ⟨hm, by omega⟩
    rw [if_neg (by simp [hne])]
    rcases hrd : runDays fuel skills settings (datesOf today settings)
        (initState skills) with ⟨st, err⟩
    have : err = none := by
      have := runDays_no_fail (by intro hc; linarith) fuel skills
        (datesOf today settings) (initState skills)
      rw [hrd] at this
      exact this
    subst this
    dsimp only
    constructor
    · intro hres
      by_cases hemp : st.generatedSchedule.isEmpty = true
      · exact List.isEmpty_iff.mp hemp
      · rw [if_neg (by simpa using hemp)] at hres
        cases hres
    · intro hemp
      rw [if_pos (by simpa using List.isEmpty_iff.mpr hemp)]
  · intro sched summ hok
    unfold generateSchedule at hok
    by_cases hfirst : (datesOf today settings).isEmpty = true ∧
        settings.mode = Mode.Monthly
    · rw [if_pos hfirst] at hok
      cases hok
    · rw [if_neg hfirst] at hok
      rcases hrd : runDays fuel skills settings (datesOf today settings)
          (initState skills) with ⟨st, err⟩
      rw [hrd] at hok
      cases err with
      | some e => cases hok
      | none =>
        dsimp only at hok
        by_cases hemp : st.generatedSchedule.isEmpty = true
        · rw [if_pos hemp] at hok
          cases hok
        · rw [if_neg hemp] at hok
          injection hok with hpair
          have h1 : sched = st.generatedSchedule := (congrArg Prod.fst hpair.symm)
          have h2 : summ = summaryOf skills st.totalMinutesPerSkill :=
            (congrArg Prod.snd hpair.symm)
          constructor
          · rw [h1]
            simpa using hemp
          · rw [h2]
            unfold summaryOf
            simp

unseal Rat.add Rat.mul Rat.sub Rat.inv in
/-- Witness for C5 at concrete inputs: an inverted Monthly range throws
the range error, and an inverted window (with a valid range) throws the
window error. -/
theorem error_taxonomy_witness :
    generateSchedule 5 0 []
      { mode := .Monthly, dailyHours := 1, startDate := 3, endDate := 2,
        startTime := "09:00", endTime := "17:00", workBlockMins := 30,
        breakMins := 5, lunch := none } = .error .invalidRange ∧
    generateSchedule 5 0 []
      { mode := .Daily, dailyHours := 1, startDate := 0, endDate := 0,
        startTime := "17:00", endTime := "09:00", workBlockMins := 30,
        breakMins := 5, lunch := none } = .error .invalidWindow := by
  constructor
  · exact (error_taxonomy 5 0 []
      { mode := .Monthly, dailyHours := 1, startDate := 3, endDate := 2,
        startTime := "09:00", endTime := "17:00", workBlockMins := 30,
        breakMins := 5, lunch := none }).1 rfl (by decide)
  · exact (error_taxonomy 5 0 []
      { mode := .Daily, dailyHours := 1, startDate := 0, endDate := 0,
        startTime := "17:00", endTime := "09:00", workBlockMins := 30,
        breakMins := 5, lunch := none }).2.1 (Or.inl rfl) (by decide)

/-! ### Work-minute bookkeeping over block lists -/

theorem workMinutes_append (bs cs : List ScheduleBlock) (id : String) :
    workMinutes (bs ++ cs) id = workMinutes bs id + workMinutes cs id := by
  unfold workMinutes
  rw [List.filter_append, List.map_append, List.sum_append]

theorem workMinutes_nil (id : String) : workMinutes [] id = 0 := rfl

theorem workMinutes_single_work (skill : Skill) (ct d : ℚ) (id : String) :
    workMinutes [workBlockOf skill ct d] id = if skill.id = id then d else 0 := by
  unfold workMinutes workBlockOf
  by_cases h : skill.id = id
  · simp [h]
  · simp [h]

theorem workMinutes_single_nonwork (b : ScheduleBlock)
    (h : b.type ≠ BlockType.work) (id : String) :
    workMinutes [b] id = 0 := by
  unfold workMinutes
  simp [List.filter, h]

theorem workMinutes_perm {bs cs : List ScheduleBlock} (h : bs.Perm cs)
    (id : String) : workMinutes bs id = workMinutes cs id := by
  unfold workMinutes
  exact List.Perm.sum_eq (List.Perm.map _ (List.Perm.filter _ h))

/-! ### The buffer fill only inserts buffers -/

theorem foldl_bufferStep_filter (p : ScheduleBlock → Bool)
    (hp : ∀ a b : ℚ, p (bufferBlockOf a b) = false) :
    ∀ (bs : List ScheduleBlock) (acc : List ScheduleBlock × ℚ),
      ((bs.foldl bufferStep acc).1).filter p = acc.1.filter p ++ bs.filter p := by
  intro bs
  induction bs with
  | nil => intro acc; simp
  | cons b bs ih =>
    intro acc
    rw [List.foldl_cons, ih]
    unfold bufferStep
    by_cases hgap : acc.2 < b.start
    · rw [if_pos hgap]
      by_cases hb : p b
      · simp [List.filter_append, hp, hb]
      · simp [List.filter_append, hp, hb]
    · rw [if_neg hgap]
      by_cases hb : p b
      · simp [List.filter_append, hb]
      · simp [List.filter_append, hb]

theorem bufferFill_filter (p : ScheduleBlock → Bool)
    (hp : ∀ a b : ℚ, p (bufferBlockOf a b) = false)
    (ws we : ℚ) (bs : List ScheduleBlock) :
    (bufferFill ws we bs).filter p = bs.filter p := by
  unfold bufferFill
  by_cases hend : (bs.foldl bufferStep ([], ws)).2 < we
  · rw [if_pos hend, List.filter_append, foldl_bufferStep_filter p hp]
    simp [hp]
  · rw [if_neg hend, foldl_bufferStep_filter p hp]
    simp

theorem workMinutes_bufferFill (ws we : ℚ) (bs : List ScheduleBlock)
    (id : String) : workMinutes (bufferFill ws we bs) id = workMinutes bs id := by
  unfold workMinutes
  rw [bufferFill_filter _ (fun a b => rfl) ws we bs]

theorem workMinutes_lunchBackfill (lunch : Option Lunch) (ws we : ℚ)
    (bs : List ScheduleBlock) (id : String) :
    workMinutes (lunchBackfill lunch ws we bs) id = workMinutes bs id := by
  cases lunch with
  | none => rfl
  | some l =>
    unfold lunchBackfill
    dsimp only
    split_ifs with h1 h2
    · rfl
    · rw [workMinutes_append,
        workMinutes_single_nonwork (lunchBlockOf l) (by simp [lunchBlockOf])]
      ring
    · rfl

/-! ### Active skills and weights -/

theorem mem_activeSkills {rem : String → ℚ} {skills : List Skill} {sk : Skill} :
    sk ∈ activeSkillsOf rem skills ↔ sk ∈ skills ∧ 0 < rem sk.id := by
  unfold activeSkillsOf
  simp [List.mem_filter]

theorem totalWeight_pos {active : List Skill} (h : active ≠ []) :
    0 < totalWeightOf active := by
  unfold totalWeightOf
  apply List.sum_pos
  · intro x hx
    rcases List.mem_map.mp hx with ⟨sk, _, rfl⟩
    cases sk.priority <;> norm_num [PRIORITY_WEIGHTS]
  · simpa using h

theorem id_not_active {rem : String → ℚ} {skills : List Skill}
    (hnd : (skills.map Skill.id).Nodup) {sk : Skill} (hsk : sk ∈ skills)
    (h : rem sk.id ≤ 0) :
    sk.id ∉ (activeSkillsOf rem skills).map Skill.id := by
  intro hc
  rcases List.mem_map.mp hc with ⟨sk', hsk', heq⟩
  obtain ⟨hsk'mem, hsk'pos⟩ := mem_activeSkills.mp hsk'
  have : sk' = sk := List.inj_on_of_nodup_map hnd hsk'mem hsk heq
  subst this
  linarith

theorem dailyAllocationOf_active {rem : String → ℚ} {skills : List Skill}
    (allocatable : ℚ) (hnd : (skills.map Skill.id).Nodup) {sk : Skill}
    (hsk : sk ∈ activeSkillsOf rem skills) :
    dailyAllocationOf allocatable rem (activeSkillsOf rem skills) sk.id =
      roundTo5 (min (allocatable * PRIORITY_WEIGHTS sk.priority /
        totalWeightOf (activeSkillsOf rem skills)) (rem sk.id)) := by
  unfold dailyAllocationOf
  rw [mapOfPairs_map_lookup (activeSkills_map_id_nodup hnd) hsk]

theorem dailyAllocationOf_not_active {rem : String → ℚ} {skills : List Skill}
    (allocatable : ℚ) (hnd : (skills.map Skill.id).Nodup) {sk : Skill}
    (hsk : sk ∈ skills) (h : rem sk.id ≤ 0) :
    dailyAllocationOf allocatable rem (activeSkillsOf rem skills) sk.id = 0 := by
  unfold dailyAllocationOf
  apply mapOfPairs_not_mem
  rw [map_fst_pairs]
  exact id_not_active hnd hsk h

theorem dailyAllocationOf_nonneg {rem : String → ℚ} {skills : List Skill}
    (hallocatable : 0 < allocatable) (id : String) :
    0 ≤ dailyAllocationOf allocatable rem (activeSkillsOf rem skills) id := by
  unfold dailyAllocationOf
  rcases mapOfPairs_spec ((activeSkillsOf rem skills).map (fun s =>
    (s.id, roundTo5 (min (allocatable * PRIORITY_WEIGHTS s.priority /
      totalWeightOf (activeSkillsOf rem skills)) (rem s.id))))) id with h0 | ⟨p, hmem, _, hval⟩
  · rw [h0]
  · rw [hval]
    rcases List.mem_map.mp hmem with ⟨sk, hsk, rfl⟩
    apply roundTo5_nonneg
    have hrem : 0 < rem sk.id := (mem_activeSkills.mp hsk).2
    have hact : activeSkillsOf rem skills ≠ [] := by
      intro hc
      rw [hc] at hsk
      cases hsk
    have htw := totalWeight_pos hact
    have hw : 0 < PRIORITY_WEIGHTS sk.priority := by
      cases sk.priority <;> norm_num [PRIORITY_WEIGHTS]
    have hprop : 0 < allocatable * PRIORITY_WEIGHTS sk.priority /
        totalWeightOf (activeSkillsOf rem skills) := by positivity
    exact le_of_lt (lt_min hprop hrem)

/-! ### Case analysis of one date iteration -/

theorem processDay_elim {fuel : ℕ} {skills : List Skill} {settings : Settings}
    {date : ℤ} {st : SchedState} {motive : SchedState × Ctl → Prop}
    (hfail : windowEndOf settings - windowStartOf settings ≤ 0 →
      motive (st, .fail .invalidWindow))
    (hskip : ¬ (windowEndOf settings - windowStartOf settings ≤ 0) →
      allocatableOf settings ≤ 0 → motive (st, .next))
    (hstop : ¬ (windowEndOf settings - windowStartOf settings ≤ 0) →
      ¬ (allocatableOf settings ≤ 0) →
      (activeSkillsOf st.remainingHours skills).isEmpty = true →
      motive (st, .stop))
    (hw0 : ¬ (windowEndOf settings - windowStartOf settings ≤ 0) →
      ¬ (allocatableOf settings ≤ 0) →
      ¬ ((activeSkillsOf st.remainingHours skills).isEmpty = true) →
      totalWeightOf (activeSkillsOf st.remainingHours skills) = 0 →
      motive (st, .next))
    (hpush : ¬ (windowEndOf settings - windowStartOf settings ≤ 0) →
      ¬ (allocatableOf settings ≤ 0) →
      ¬ ((activeSkillsOf st.remainingHours skills).isEmpty = true) →
      ¬ (totalWeightOf (activeSkillsOf st.remainingHours skills) = 0) →
      motive (pushDay fuel skills settings date st, .next)) :
    motive (processDay fuel skills settings date st) := by
  unfold processDay
  split_ifs with h1 h2 h3 h4
  · exact hfail h1
  · exact hskip h1 h2
  · exact hstop h1 h2 h3
  · exact hw0 h1 h2 h3 h4
  · exact hpush h1 h2 h3 h4

/-- Generic preservation of a state predicate through the date loop: only
the push branch changes the state. -/
theorem runDays_preserves {fuel : ℕ} {skills : List Skill} {settings : Settings}
    (P : SchedState → Prop)
    (hpush : ∀ (date : ℤ) (st : SchedState),
      ¬ (windowEndOf settings - windowStartOf settings ≤ 0) →
      ¬ (allocatableOf settings ≤ 0) →
      ¬ ((activeSkillsOf st.remainingHours skills).isEmpty = true) →
      ¬ (totalWeightOf (activeSkillsOf st.remainingHours skills) = 0) →
      P st → P (pushDay fuel skills settings date st)) :
    ∀ (dates : List ℤ) (st : SchedState), P st →
      P (runDays fuel skills settings dates st).1 := by
  intro dates
  induction dates with
  | nil => intro st h; exact h
  | cons d ds ih =>
    intro st h
    unfold runDays
    have hm : ∀ out, processDay fuel skills settings d st = out →
        P (match out with
           | (st', Ctl.next) => runDays fuel skills settings ds st'
           | (st', Ctl.stop) => (st', none)
           | (st', Ctl.fail e) => (st', some e)).1 := by
      intro out hout
      have := @processDay_elim fuel skills settings d st
        (fun r => r = out →
          P (match out with
             | (st', Ctl.next) => runDays fuel skills settings ds st'
             | (st', Ctl.stop) => (st', none)
             | (st', Ctl.fail e) => (st', some e)).1)
        ?_ ?_ ?_ ?_ ?_ hout
      · exact this
      · intro _ hr
        rw [← hr]
        exact h
      · intro _ _ hr
        rw [← hr]
        exact ih st h
      · intro _ _ _ hr
        rw [← hr]
        exact h
      · intro _ _ _ _ hr
        rw [← hr]
        exact ih st h
      · intro h1 h2 h3 h4 hr
        rw [← hr]
        exact ih _ (hpush d st h1 h2 h3 h4 h)
    exact hm _ rfl

/-! ### The allocation ledger invariant of the day loop -/

theorem ledger_emitWork {A0 T0 R0 : String → ℚ} {s : DayState}
    (h : Ledger A0 T0 R0 s) (skill : Skill) (d : ℚ)
    (hd : d < s.dailyAllocation skill.id + 5 / 2)
    (hpos : 0 < s.dailyAllocation skill.id) :
    Ledger A0 T0 R0 (emitWork { s with queueIndex := s.queueIndex + 1 } skill d) := by
  intro id
  obtain ⟨h1, h2, h3, h4⟩ := h id
  unfold emitWork
  by_cases hid : id = skill.id
  · subst hid
    dsimp only
    rw [mapSet_same, mapSet_same, mapSet_same]
    refine ⟨by rw [h1]; ring, by rw [h2]; ring, by linarith, ?_⟩
    intro hA
    have := h4 hA
    rw [this] at hpos
    linarith
  · dsimp only
    rw [mapSet_other _ _ hid, mapSet_other _ _ hid, mapSet_other _ _ hid]
    exact ⟨h1, h2, h3, h4⟩

theorem loopBody_ledger {lunch : Option Lunch} {wbm bm we : ℚ}
    {queue : List Skill} {s : DayState} {A0 T0 R0 : String → ℚ}
    (h : Ledger A0 T0 R0 s) :
    ∀ s', (loopBody lunch wbm bm we queue s = .inl s' ∨
      loopBody lunch wbm bm we queue s = .inr s') → Ledger A0 T0 R0 s' := by
  have key : ∀ s', (loopBody lunch wbm bm we queue s = .inl s' ∨
      loopBody lunch wbm bm we queue s = .inr s') → Ledger A0 T0 R0 s' := by
    refine loopBody_elim (motive := fun out => ∀ s',
      (out = Sum.inl s' ∨ out = Sum.inr s') → Ledger A0 T0 R0 s') ?_ ?_ ?_
    · intro l _ _ _ _ s' hs'
      rcases hs' with hs' | hs' <;> cases hs'
      exact h
    · intro l _ _ _ _ s' hs'
      rcases hs' with hs' | hs' <;> cases hs'
      exact h
    · refine skillStep_elim (motive := fun out => ∀ s',
        (out = Sum.inl s' ∨ out = Sum.inr s') → Ledger A0 T0 R0 s') ?_ ?_ ?_ ?_ ?_ ?_
      · intro skill _ _ _ s' hs'
        rcases hs' with hs' | hs' <;> cases hs'
        exact h
      · intro skill _ _ _ s' hs'
        rcases hs' with hs' | hs' <;> cases hs'
        exact h
      · intro skill _ hpos hclip hr s' hs'
        rcases hs' with hs' | hs' <;> cases hs'
        apply ledger_emitWork h skill _ _ hpos
        have h1 := roundTo5_le (we - s.currentTime)
        have h2 : we - s.currentTime < min wbm (s.dailyAllocation skill.id) := by
          linarith
        have h3 : min wbm (s.dailyAllocation skill.id) ≤
          s.dailyAllocation skill.id := min_le_right _ _
        linarith
      · intro skill _ _ _ _ s' hs'
        rcases hs' with hs' | hs' <;> cases hs'
        exact h
      · intro skill _ hpos _ _ _ _ s' hs'
        rcases hs' with hs' | hs' <;> cases hs'
        exact ledger_emitWork h skill _
          (by have := min_le_right wbm (s.dailyAllocation skill.id); linarith) hpos
      · intro skill _ hpos _ _ s' hs'
        rcases hs' with hs' | hs' <;> cases hs'
        exact ledger_emitWork h skill _
          (by have := min_le_right wbm (s.dailyAllocation skill.id); linarith) hpos
  exact key

theorem dayLoop_ledger {lunch : Option Lunch} {wbm bm we : ℚ}
    {queue : List Skill} (A0 T0 R0 : String → ℚ) :
    ∀ (n : ℕ) (s : DayState), Ledger A0 T0 R0 s →
      Ledger A0 T0 R0 (dayLoop lunch wbm bm we queue n s).1 :=
  dayLoop_rec (Ledger A0 T0 R0) (Ledger A0 T0 R0) (fun _ h => h)
    (fun _ s' _ _ he h => loopBody_ledger h s' (Or.inl he))
    (fun _ s' _ _ he h => loopBody_ledger h s' (Or.inr he))

/-! ### The block-accounting invariant of the day loop -/

theorem blocksLedger_emitWork {T0 : String → ℚ} {s : DayState}
    (h : BlocksLedger T0 s) (skill : Skill) (d : ℚ) :
    BlocksLedger T0 (emitWork { s with queueIndex := s.queueIndex + 1 } skill d) := by
  intro id
  have h1 := h id
  unfold emitWork
  dsimp only
  rw [workMinutes_append, workMinutes_single_work]
  by_cases hid : id = skill.id
  · subst hid
    rw [mapSet_same, if_pos rfl, h1]
    ring
  · rw [mapSet_other _ _ hid, if_neg (fun hc => hid hc.symm), h1]
    ring

theorem loopBody_blocksLedger {lunch : Option Lunch} {wbm bm we : ℚ}
    {queue : List Skill} {s : DayState} {T0 : String → ℚ}
    (h : BlocksLedger T0 s) :
    ∀ s', (loopBody lunch wbm bm we queue s = .inl s' ∨
      loopBody lunch wbm bm we queue s = .inr s') → BlocksLedger T0 s' := by
  have key : ∀ s', (loopBody lunch wbm bm we queue s = .inl s' ∨
      loopBody lunch wbm bm we queue s = .inr s') → BlocksLedger T0 s' := by
    refine loopBody_elim (motive := fun out => ∀ s',
      (out = Sum.inl s' ∨ out = Sum.inr s') → BlocksLedger T0 s') ?_ ?_ ?_
    · intro l _ _ _ _ s' hs'
      rcases hs' with hs' | hs' <;> cases hs'
      intro id
      dsimp only
      rw [workMinutes_append,
        workMinutes_single_nonwork (lunchBlockOf l) (by simp [lunchBlockOf])]
      rw [h id]
      ring
    · intro l _ _ _ _ s' hs'
      rcases hs' with hs' | hs' <;> cases hs'
      exact h
    · refine skillStep_elim (motive := fun out => ∀ s',
        (out = Sum.inl s' ∨ out = Sum.inr s') → BlocksLedger T0 s') ?_ ?_ ?_ ?_ ?_ ?_
      · intro skill _ _ _ s' hs'
        rcases hs' with hs' | hs' <;> cases hs'
        exact h
      · intro skill _ _ _ s' hs'
        rcases hs' with hs' | hs' <;> cases hs'
        exact h
      · intro skill _ _ _ _ s' hs'
        rcases hs' with hs' | hs' <;> cases hs'
        exact blocksLedger_emitWork h skill _
      · intro skill _ _ _ _ s' hs'
        rcases hs' with hs' | hs' <;> cases hs'
        exact h
      · intro skill _ _ _ _ _ _ s' hs'
        rcases hs' with hs' | hs' <;> cases hs'
        intro id
        dsimp only
        rw [workMinutes_append]
        rw [workMinutes_single_nonwork _ (by simp [breakBlockOf])]
        have := blocksLedger_emitWork h skill
          (min wbm (s.dailyAllocation skill.id)) id
        rw [this]
        unfold emitWork
        dsimp only
        ring
      · intro skill _ _ _ _ s' hs'
        rcases hs' with hs' | hs' <;> cases hs'
        exact blocksLedger_emitWork h skill _
  exact key

theorem dayLoop_blocksLedger {lunch : Option Lunch} {wbm bm we : ℚ}
    {queue : List Skill} (T0 : String → ℚ) :
    ∀ (n : ℕ) (s : DayState), BlocksLedger T0 s →
      BlocksLedger T0 (dayLoop lunch wbm bm we queue n s).1 :=
  dayLoop_rec (BlocksLedger T0) (BlocksLedger T0) (fun _ h => h)
    (fun _ s' _ _ he h => loopBody_blocksLedger h s' (Or.inl he))
    (fun _ s' _ _ he h => loopBody_blocksLedger h s' (Or.inr he))

/-! ### Monotonicity of the totals map -/

theorem totalsMono_emitWork {T0 : String → ℚ} {s : DayState}
    (h : TotalsMono T0 s) (skill : Skill) {d : ℚ} (hd : 0 ≤ d) :
    TotalsMono T0 (emitWork { s with queueIndex := s.queueIndex + 1 } skill d) := by
  intro id
  have h1 := h id
  unfold emitWork
  dsimp only
  by_cases hid : id = skill.id
  · subst hid
    rw [mapSet_same]
    linarith
  · rw [mapSet_other _ _ hid]
    exact h1

theorem loopBody_totalsMono {lunch : Option Lunch} {wbm bm we : ℚ}
    {queue : List Skill} {s : DayState} {T0 : String → ℚ}
    (hwbm : 0 ≤ wbm) (h : TotalsMono T0 s) :
    ∀ s', (loopBody lunch wbm bm we queue s = .inl s' ∨
      loopBody lunch wbm bm we queue s = .inr s') → TotalsMono T0 s' := by
  have key : ∀ s', (loopBody lunch wbm bm we queue s = .inl s' ∨
      loopBody lunch wbm bm we queue s = .inr s') → TotalsMono T0 s' := by
    refine loopBody_elim (motive := fun out => ∀ s',
      (out = Sum.inl s' ∨ out = Sum.inr s') → TotalsMono T0 s') ?_ ?_ ?_
    · intro l _ _ _ _ s' hs'
      rcases hs' with hs' | hs' <;> cases hs'
      exact h
    · intro l _ _ _ _ s' hs'
      rcases hs' with hs' | hs' <;> cases hs'
      exact h
    · refine skillStep_elim (motive := fun out => ∀ s',
        (out = Sum.inl s' ∨ out = Sum.inr s') → TotalsMono T0 s') ?_ ?_ ?_ ?_ ?_ ?_
      · intro skill _ _ _ s' hs'
        rcases hs' with hs' | hs' <;> cases hs'
        exact h
      · intro skill _ _ _ s' hs'
        rcases hs' with hs' | hs' <;> cases hs'
        exact h
      · intro skill _ _ _ hr s' hs'
        rcases hs' with hs' | hs' <;> cases hs'
        exact totalsMono_emitWork h skill (le_of_lt hr)
      · intro skill _ _ _ _ s' hs'
        rcases hs' with hs' | hs' <;> cases hs'
        exact h
      · intro skill _ hpos _ _ _ _ s' hs'
        rcases hs' with hs' | hs' <;> cases hs'
        exact totalsMono_emitWork h skill (le_min hwbm (le_of_lt hpos))
      · intro skill _ hpos _ _ s' hs'
        rcases hs' with hs' | hs' <;> cases hs'
        exact totalsMono_emitWork h skill (le_min hwbm (le_of_lt hpos))
  exact key

theorem dayLoop_totalsMono {lunch : Option Lunch} {wbm bm we : ℚ}
    {queue : List Skill} (T0 : String → ℚ) (hwbm : 0 ≤ wbm) :
    ∀ (n : ℕ) (s : DayState), TotalsMono T0 s →
      TotalsMono T0 (dayLoop lunch wbm bm we queue n s).1 :=
  dayLoop_rec (TotalsMono T0) (TotalsMono T0) (fun _ h => h)
    (fun _ s' _ _ he h => loopBody_totalsMono hwbm h s' (Or.inl he))
    (fun _ s' _ _ he h => loopBody_totalsMono hwbm h s' (Or.inr he))

/-! ### Day-level consequences -/

theorem mapOfPairs_zero {ps : List (String × ℚ)} (h : ∀ p ∈ ps, p.2 = 0)
    (k : String) : mapOfPairs ps k = 0 := by
  rcases mapOfPairs_spec ps k with h0 | ⟨p, hmem, _, hval⟩
  · exact h0
  · rw [hval]
    exact h p hmem

theorem dayState0_ledger (skills : List Skill) (settings : Settings)
    (st : SchedState) (hallocatable : 0 < allocatableOf settings) :
    Ledger (dayState0 skills settings st).dailyAllocation
      st.totalMinutesPerSkill st.remainingHours (dayState0 skills settings st) := by
  intro id
  have e1 : (dayState0 skills settings st).totalMinutesPerSkill =
      st.totalMinutesPerSkill := rfl
  have e2 : (dayState0 skills settings st).remainingHours =
      st.remainingHours := rfl
  refine ⟨by rw [e1]; ring, by rw [e2]; ring, ?_, fun _ => rfl⟩
  have h : 0 ≤ dailyAllocationOf (allocatableOf settings) st.remainingHours
      (activeSkillsOf st.remainingHours skills) id :=
    dailyAllocationOf_nonneg hallocatable id
  unfold dayState0
  dsimp only
  linarith

theorem dayRun_ledger (fuel : ℕ) (skills : List Skill) (settings : Settings)
    (st : SchedState) (hallocatable : 0 < allocatableOf settings) :
    Ledger (dayState0 skills settings st).dailyAllocation
      st.totalMinutesPerSkill st.remainingHours
      (dayRun fuel skills settings st).1 := by
  unfold dayRun
  exact dayLoop_ledger _ _ _ fuel _ (dayState0_ledger skills settings st hallocatable)

theorem workMinutes_dayFinalBlocks (fuel : ℕ) (skills : List Skill)
    (settings : Settings) (st : SchedState) (id : String) :
    workMinutes (dayFinalBlocks fuel skills settings st) id =
      workMinutes (dayRun fuel skills settings st).1.blocks id := by
  unfold dayFinalBlocks
  rw [workMinutes_bufferFill]
  rw [workMinutes_perm (List.perm_insertionSort blockLE _)]
  rw [workMinutes_lunchBackfill]

theorem pushDay_totals (fuel : ℕ) (skills : List Skill) (settings : Settings)
    (date : ℤ) (st : SchedState) (id : String) :
    (pushDay fuel skills settings date st).totalMinutesPerSkill id =
      st.totalMinutesPerSkill id +
        workMinutes (dayFinalBlocks fuel skills settings st) id := by
  have hB : BlocksLedger st.totalMinutesPerSkill (dayRun fuel skills settings st).1 := by
    unfold dayRun
    apply dayLoop_blocksLedger
    intro i
    simp [dayState0, workMinutes_nil]
  rw [workMinutes_dayFinalBlocks]
  exact hB id

theorem pushDay_rem (fuel : ℕ) {skills : List Skill} (settings : Settings)
    (date : ℤ) (st : SchedState) (hnd : (skills.map Skill.id).Nodup)
    (hallocatable : 0 < allocatableOf settings) {sk : Skill} (hsk : sk ∈ skills) :
    (pushDay fuel skills settings date st).totalMinutesPerSkill sk.id -
        st.totalMinutesPerSkill sk.id =
      st.remainingHours sk.id -
        (pushDay fuel skills settings date st).remainingHours sk.id ∧
    (-5 < st.remainingHours sk.id →
      -5 < (pushDay fuel skills settings date st).remainingHours sk.id) := by
  have hL := dayRun_ledger fuel skills settings st hallocatable
  obtain ⟨h1, h2, h3, h4⟩ := hL sk.id
  have hpush1 : (pushDay fuel skills settings date st).totalMinutesPerSkill =
      (dayRun fuel skills settings st).1.totalMinutesPerSkill := rfl
  have hpush2 : (pushDay fuel skills settings date st).remainingHours =
      (dayRun fuel skills settings st).1.remainingHours := rfl
  rw [hpush1, hpush2]
  constructor
  · rw [h1, h2]
    ring
  · intro hold
    by_cases hact : 0 < st.remainingHours sk.id
    · have hactive : sk ∈ activeSkillsOf st.remainingHours skills :=
        mem_activeSkills.mpr ⟨hsk, hact⟩
      have hA0 : (dayState0 skills settings st).dailyAllocation sk.id =
          roundTo5 (min (allocatableOf settings * PRIORITY_WEIGHTS sk.priority /
            totalWeightOf (activeSkillsOf st.remainingHours skills))
            (st.remainingHours sk.id)) := by
        unfold dayState0
        exact dailyAllocationOf_active _ hnd hactive
      have hub : (dayState0 skills settings st).dailyAllocation sk.id ≤
          st.remainingHours sk.id + 5 / 2 := by
        rw [hA0]
        have := roundTo5_le (min (allocatableOf settings * PRIORITY_WEIGHTS sk.priority /
          totalWeightOf (activeSkillsOf st.remainingHours skills))
          (st.remainingHours sk.id))
        have hmin := min_le_right (allocatableOf settings * PRIORITY_WEIGHTS sk.priority /
          totalWeightOf (activeSkillsOf st.remainingHours skills))
          (st.remainingHours sk.id)
        linarith
      rw [h2]
      linarith
    · push_neg at hact
      have hA0 : (dayState0 skills settings st).dailyAllocation sk.id = 0 := by
        unfold dayState0
        exact dailyAllocationOf_not_active _ hnd hsk hact
      have := h4 (by rw [hA0])
      rw [h2, this, hA0]
      linarith

/-! ### The schedule-level conservation invariant -/

theorem schedWorkMinutes_append (days : List ScheduleDay) (d : ScheduleDay)
    (id : String) :
    schedWorkMinutes (days ++ [d]) id =
      schedWorkMinutes days id + workMinutes d.blocks id := by
  unfold schedWorkMinutes
  rw [List.map_append, List.sum_append]
  simp

theorem initState_schedInv {skills : List Skill}
    (hnd : (skills.map Skill.id).Nodup)
    (hest : ∀ sk ∈ skills, 0 < sk.estHours) :
    SchedInv skills (initState skills) := by
  intro sk hsk
  have htot : (initState skills).totalMinutesPerSkill sk.id = 0 := by
    unfold initState
    apply mapOfPairs_zero
    intro p hp
    rcases List.mem_map.mp hp with ⟨t, _, rfl⟩
    rfl
  have hrem : (initState skills).remainingHours sk.id = sk.estHours * 60 := by
    unfold initState
    exact mapOfPairs_map_lookup hnd hsk
  refine ⟨by rw [htot]; rfl, by rw [htot, hrem]; ring, ?_⟩
  rw [hrem]
  have := hest sk hsk
  nlinarith

theorem runDays_schedInv {fuel : ℕ} {skills : List Skill} {settings : Settings}
    (hnd : (skills.map Skill.id).Nodup) :
    ∀ (dates : List ℤ) (st : SchedState), SchedInv skills st →
      SchedInv skills (runDays fuel skills settings dates st).1 := by
  apply runDays_preserves
  intro date st _ ha _ _ hinv sk hsk
  obtain ⟨i1, i2, i3⟩ := hinv sk hsk
  have hallocatable : 0 < allocatableOf settings := by linarith [not_le.mp ha]
  obtain ⟨p1, p2⟩ := pushDay_rem fuel settings date st hnd hallocatable hsk
  have htot := pushDay_totals fuel skills settings date st sk.id
  have hsched : (pushDay fuel skills settings date st).generatedSchedule =
      st.generatedSchedule ++
        [{ date := date, blocks := dayFinalBlocks fuel skills settings st }] := rfl
  refine ⟨?_, ?_, ?_⟩
  · rw [htot, hsched, schedWorkMinutes_append, i1]
  · rw [htot] at p1 ⊢
    rw [i2] at p1 ⊢
    linarith
  · exact p2 i3

/-- Helper: the components of a successful call. -/
theorem generateSchedule_ok {fuel : ℕ} {today : ℤ} {skills : List Skill}
    {settings : Settings} {sched : List ScheduleDay} {summ : List ScheduleSummary}
    (h : generateSchedule fuel today skills settings = .ok (sched, summ)) :
    sched = (runDays fuel skills settings (datesOf today settings)
      (initState skills)).1.generatedSchedule ∧
    summ = summaryOf skills (runDays fuel skills settings
      (datesOf today settings) (initState skills)).1.totalMinutesPerSkill := by
  unfold generateSchedule at h
  by_cases h1 : (datesOf today settings).isEmpty = true ∧
      settings.mode = Mode.Monthly
  · rw [if_pos h1] at h
    cases h
  · rw [if_neg h1] at h
    rcases hrd : runDays fuel skills settings (datesOf today settings)
        (initState skills) with ⟨st, err⟩
    rw [hrd] at h
    cases err with
    | some e => cases h
    | none =>
      dsimp only at h
      by_cases hemp : st.generatedSchedule.isEmpty = true
      · rw [if_pos hemp] at h
        cases h
      · rw [if_neg hemp] at h
        injection h with hpair
        exact ⟨(congrArg Prod.fst hpair.symm), (congrArg Prod.snd hpair.symm)⟩

/-! ### Accounting and nonnegativity across the whole run -/

theorem initState_sacc (skills : List Skill) : SAcc skills (initState skills) := by
  intro sk _
  have htot : (initState skills).totalMinutesPerSkill sk.id = 0 := by
    unfold initState
    apply mapOfPairs_zero
    intro p hp
    rcases List.mem_map.mp hp with ⟨t, _, rfl⟩
    rfl
  rw [htot]
  rfl

theorem runDays_sacc {fuel : ℕ} {skills : List Skill} {settings : Settings} :
    ∀ (dates : List ℤ) (st : SchedState), SAcc skills st →
      SAcc skills (runDays fuel skills settings dates st).1 := by
  apply runDays_preserves
  intro date st _ _ _ _ hinv sk hsk
  have htot := pushDay_totals fuel skills settings date st sk.id
  have hsched : (pushDay fuel skills settings date st).generatedSchedule =
      st.generatedSchedule ++
        [{ date := date, blocks := dayFinalBlocks fuel skills settings st }] := rfl
  rw [htot, hsched, schedWorkMinutes_append, hinv sk hsk]

theorem initState_smono (skills : List Skill) : SMono (initState skills) := by
  intro id
  unfold initState
  have : mapOfPairs (skills.map fun s => (s.id, (0 : ℚ))) id = 0 := by
    apply mapOfPairs_zero
    intro p hp
    rcases List.mem_map.mp hp with ⟨t, _, rfl⟩
    rfl
  dsimp only
  rw [this]

theorem runDays_smono {fuel : ℕ} {skills : List Skill} {settings : Settings}
    (hwbm : 0 ≤ settings.workBlockMins) :
    ∀ (dates : List ℤ) (st : SchedState), SMono st →
      SMono (runDays fuel skills settings dates st).1 := by
  apply runDays_preserves
  intro date st _ _ _ _ hinv id
  have hmono : TotalsMono st.totalMinutesPerSkill
      (dayRun fuel skills settings st).1 := by
    unfold dayRun
    apply dayLoop_totalsMono _ hwbm
    intro i
    exact le_refl _
  have : (pushDay fuel skills settings date st).totalMinutesPerSkill =
      (dayRun fuel skills settings st).1.totalMinutesPerSkill := rfl
  rw [this]
  exact le_trans (hinv id) (hmono id)

theorem grandTotalOf_nodup {skills : List Skill}
    (hnd : (skills.map Skill.id).Nodup) (totals : String → ℚ) :
    grandTotalOf skills totals = (skills.map (fun sk => totals sk.id)).sum := by
  unfold grandTotalOf
  rw [List.Nodup.dedup hnd, List.map_map]
  rfl

/-! ### Claim C2: the per-skill budget bound -/

/-- C2.  For every input (skill ids unique and estimated hours positive,
as the data model requires) and every input skill, the total scheduled
work minutes carrying that skill's id never exceed `estHours * 60` plus
5 minutes of rounding slack.  (On an error result the schedule is empty
and the sum is 0.) -/
theorem skill_budget_bound (fuel : ℕ) (today : ℤ) (skills : List Skill)
    (settings : Settings) (hnd : (skills.map Skill.id).Nodup)
    (hest : ∀ sk ∈ skills, 0 < sk.estHours) :
    ∀ sk ∈ skills,
      schedWorkMinutes (schedOf (generateSchedule fuel today skills settings)) sk.id ≤
        sk.estHours * 60 + 5 := by
  intro sk hsk
  have hpos := hest sk hsk
  cases hres : generateSchedule fuel today skills settings with
  | error e =>
    have : schedOf (Except.error e) = [] := rfl
    rw [this]
    unfold schedWorkMinutes
    simp only [List.map_nil, List.sum_nil]
    nlinarith
  | ok p =>
    rcases p with ⟨sched, summ⟩
    obtain ⟨hsched, _⟩ := generateSchedule_ok hres
    have hfin0 : SchedInv skills (runDays fuel skills settings
        (datesOf today settings) (initState skills)).1 :=
      runDays_schedInv hnd (datesOf today settings) (initState skills)
        (initState_schedInv hnd hest)
    have hfin := hfin0 sk hsk
    obtain ⟨c1, c2, c3⟩ := hfin
    have : schedOf (Except.ok (sched, summ)) = sched := rfl
    rw [this, hsched, ← c1, c2]
    linarith

/-- Witness for C2: Scenario A's input, at its single skill. -/
theorem skill_budget_bound_witness :
    schedWorkMinutes (schedOf (generateSchedule 200 0 scenarioASkills
      scenarioASettings))
      ({ id := "s1", name := "A", priority := Priority.High, estHours := 1 } : Skill).id ≤
      ({ id := "s1", name := "A", priority := Priority.High, estHours := 1 } : Skill).estHours * 60 + 5 :=
  skill_budget_bound 200 0 scenarioASkills scenarioASettings (by decide)
    (by intro sk hsk; fin_cases hsk; norm_num)
    { id := "s1", name := "A", priority := Priority.High, estHours := 1 }
    (by decide)

/-! ### Claim C6: the summary rows -/

/-- C6.  A successful call returns one summary entry per input skill, in
the original input order, whose minutes are exactly that skill's
scheduled work minutes and whose percent is minutes over the grand total
of scheduled work minutes times 100, or 0 throughout when that grand
total is 0.  (Skill ids unique, as the data model requires.) -/
theorem summary_spec (fuel : ℕ) (today : ℤ) (skills : List Skill)
    (settings : Settings) (hnd : (skills.map Skill.id).Nodup)
    (hok : isOkB (generateSchedule fuel today skills settings) = true) :
    summOf (generateSchedule fuel today skills settings) =
      skills.map (fun sk =>
        { skillId := sk.id, skillName := sk.name,
          minutes := schedWorkMinutes
            (schedOf (generateSchedule fuel today skills settings)) sk.id,
          percent :=
            if 0 < (skills.map (fun t => schedWorkMinutes
                (schedOf (generateSchedule fuel today skills settings)) t.id)).sum
            then schedWorkMinutes
                (schedOf (generateSchedule fuel today skills settings)) sk.id /
              (skills.map (fun t => schedWorkMinutes
                (schedOf (generateSchedule fuel today skills settings)) t.id)).sum * 100
            else 0 }) := by
  cases hres : generateSchedule fuel today skills settings with
  | error e =>
    rw [hres] at hok
    cases hok
  | ok p =>
    rcases p with ⟨sched, summ⟩
    obtain ⟨hsched, hsumm⟩ := generateSchedule_ok hres
    have hacc : SAcc skills (runDays fuel skills settings
        (datesOf today settings) (initState skills)).1 :=
      runDays_sacc (datesOf today settings) (initState skills)
        (initState_sacc skills)
    have hso : schedOf (Except.ok (sched, summ) :
        Except SchedError (List ScheduleDay × List ScheduleSummary)) = sched := rfl
    have hsu : summOf (Except.ok (sched, summ) :
        Except SchedError (List ScheduleDay × List ScheduleSummary)) = summ := rfl
    rw [hsu, hso, hsumm]
    unfold summaryOf
    have hG : grandTotalOf skills
        (runDays fuel skills settings (datesOf today settings)
          (initState skills)).1.totalMinutesPerSkill =
        (skills.map (fun t => schedWorkMinutes sched t.id)).sum := by
      rw [grandTotalOf_nodup hnd]
      congr 1
      apply List.map_congr_left
      intro sk hsk
      rw [hacc sk hsk, hsched]
    apply List.map_congr_left
    intro sk hsk
    have hm := hacc sk hsk
    rw [hG, hm, hsched]

unseal Rat.add Rat.mul Rat.sub Rat.inv in
/-- Witness for C6: Scenario A's input. -/
theorem summary_spec_witness :
    summOf (generateSchedule 200 0 scenarioASkills scenarioASettings) =
      scenarioASkills.map (fun sk =>
        { skillId := sk.id, skillName := sk.name,
          minutes := schedWorkMinutes
            (schedOf (generateSchedule 200 0 scenarioASkills scenarioASettings)) sk.id,
          percent :=
            if 0 < (scenarioASkills.map (fun t => schedWorkMinutes
                (schedOf (generateSchedule 200 0 scenarioASkills scenarioASettings)) t.id)).sum
            then schedWorkMinutes
                (schedOf (generateSchedule 200 0 scenarioASkills scenarioASettings)) sk.id /
              (scenarioASkills.map (fun t => schedWorkMinutes
                (schedOf (generateSchedule 200 0 scenarioASkills scenarioASettings)) t.id)).sum * 100
            else 0 }) := by
  exact summary_spec 200 0 scenarioASkills scenarioASettings (by decide) (by decide)

/-! ### Claim C10: summary minutes are nonnegative, percents partition 100 -/

/-- C10.  Whenever the call returns (work-block length nonnegative, as
the data model's `workBlockMins >= 25` requires, and skill ids unique),
every summary entry's minutes are nonnegative; in exact rational
arithmetic the percents sum to exactly 100 when the grand total of
scheduled work minutes is positive, and every percent is exactly 0 when
that grand total is 0. -/
theorem percent_partition (fuel : ℕ) (today : ℤ) (skills : List Skill)
    (settings : Settings) (hnd : (skills.map Skill.id).Nodup)
    (hwbm : 0 ≤ settings.workBlockMins) :
    (∀ e ∈ summOf (generateSchedule fuel today skills settings), 0 ≤ e.minutes) ∧
    (0 < (skills.map (fun t => schedWorkMinutes
        (schedOf (generateSchedule fuel today skills settings)) t.id)).sum →
      ((summOf (generateSchedule fuel today skills settings)).map
        ScheduleSummary.percent).sum = 100) ∧
    ((skills.map (fun t => schedWorkMinutes
        (schedOf (generateSchedule fuel today skills settings)) t.id)).sum = 0 →
      ∀ e ∈ summOf (generateSchedule fuel today skills settings), e.percent = 0) := by
  cases hres : generateSchedule fuel today skills settings with
  | error e =>
    have hsu : summOf (Except.error e :
        Except SchedError (List ScheduleDay × List ScheduleSummary)) = [] := rfl
    have hso : schedOf (Except.error e :
        Except SchedError (List ScheduleDay × List ScheduleSummary)) = [] := rfl
    rw [hsu, hso]
    refine ⟨?_, ?_, ?_⟩
    · intro e he
      cases he
    · intro hpos
      exfalso
      have : ∀ t ∈ skills, schedWorkMinutes ([] : List ScheduleDay) t.id = 0 := by
        intro t _
        rfl
      rw [List.map_congr_left this] at hpos
      simp at hpos
    · intro _ e he
      cases he
  | ok p =>
    rcases p with ⟨sched, summ⟩
    obtain ⟨hsched, hsumm⟩ := generateSchedule_ok hres
    have hacc : SAcc skills (runDays fuel skills settings
        (datesOf today settings) (initState skills)).1 :=
      runDays_sacc (datesOf today settings) (initState skills)
        (initState_sacc skills)
    have hmono : SMono (runDays fuel skills settings
        (datesOf today settings) (initState skills)).1 :=
      runDays_smono hwbm (datesOf today settings) (initState skills)
        (initState_smono skills)
    have hso : schedOf (Except.ok (sched, summ) :
        Except SchedError (List ScheduleDay × List ScheduleSummary)) = sched := rfl
    have hsu : summOf (Except.ok (sched, summ) :
        Except SchedError (List ScheduleDay × List ScheduleSummary)) = summ := rfl
    rw [hso, hsu, hsumm]
    set totals := (runDays fuel skills settings (datesOf today settings)
      (initState skills)).1.totalMinutesPerSkill with htotals
    have hG : grandTotalOf skills totals =
        (skills.map (fun t => schedWorkMinutes sched t.id)).sum := by
      rw [grandTotalOf_nodup hnd]
      congr 1
      apply List.map_congr_left
      intro sk hsk
      rw [htotals, hacc sk hsk, hsched]
    refine ⟨?_, ?_, ?_⟩
    · intro e he
      unfold summaryOf at he
      rcases List.mem_map.mp he with ⟨sk, _, rfl⟩
      exact hmono sk.id
    · intro hpos
      unfold summaryOf
      rw [List.map_map]
      have hstep : ∀ sk ∈ skills,
          (ScheduleSummary.percent ∘ fun skill =>
            ({ skillId := skill.id, skillName := skill.name,
               minutes := totals skill.id,
               percent := if 0 < grandTotalOf skills totals
                 then totals skill.id / grandTotalOf skills totals * 100
                 else 0 } : ScheduleSummary)) sk =
          totals sk.id * (100 / grandTotalOf skills totals) := by
        intro sk _
        have : (0 : ℚ) < grandTotalOf skills totals := by rw [hG]; exact hpos
        simp only [Function.comp]
        rw [if_pos this]
        ring
      rw [List.map_congr_left hstep, List.sum_map_mul_right]
      have hGsum : (skills.map (fun sk => totals sk.id)).sum =
          grandTotalOf skills totals := (grandTotalOf_nodup hnd totals).symm
      rw [hGsum]
      have hne : grandTotalOf skills totals ≠ 0 := by
        rw [hG]
        exact ne_of_gt hpos
      field_simp
    · intro hzero e he
      unfold summaryOf at he
      rcases List.mem_map.mp he with ⟨sk, _, rfl⟩
      dsimp only
      have hnotpos : ¬ (0 < grandTotalOf skills totals) := by
        rw [hG]
        linarith
      rw [if_neg hnotpos]

unseal Rat.add Rat.mul Rat.sub Rat.inv in
/-- Witness for C10: Scenario A's input (positive grand total). -/
theorem percent_partition_witness :
    (∀ e ∈ summOf (generateSchedule 200 0 scenarioASkills scenarioASettings),
      0 ≤ e.minutes) ∧
    (0 < (scenarioASkills.map (fun t => schedWorkMinutes
        (schedOf (generateSchedule 200 0 scenarioASkills scenarioASettings)) t.id)).sum →
      ((summOf (generateSchedule 200 0 scenarioASkills scenarioASettings)).map
        ScheduleSummary.percent).sum = 100) ∧
    ((scenarioASkills.map (fun t => schedWorkMinutes
        (schedOf (generateSchedule 200 0 scenarioASkills scenarioASettings)) t.id)).sum = 0 →
      ∀ e ∈ summOf (generateSchedule 200 0 scenarioASkills scenarioASettings),
        e.percent = 0) :=
  percent_partition 200 0 scenarioASkills scenarioASettings (by decide) (by decide)

/-! ### Claim C7: exactly one lunch block per day -/

theorem mem_of_getLast? {blocks : List ScheduleBlock} {b : ScheduleBlock}
    (h : blocks.getLast? = some b) : b ∈ blocks := by
  have hmem : b ∈ blocks.getLast? := h
  rcases List.mem_getLast?_eq_getLast hmem with ⟨hne, rfl⟩
  exact List.getLast_mem hne

theorem lunchInv_emitWork {l : Lunch} {s : DayState} (h : LunchInv l s)
    (skill : Skill) (d : ℚ) :
    LunchInv l (emitWork { s with queueIndex := s.queueIndex + 1 } skill d) := by
  unfold emitWork LunchInv
  dsimp only
  rw [List.filter_append]
  have hw : List.filter (fun b => decide (b.type = BlockType.lunch))
      [workBlockOf skill s.currentTime d] = [] := by
    simp [workBlockOf]
  rw [hw, List.append_nil]
  exact h

theorem loopBody_lunchInv {wbm bm we : ℚ} {queue : List Skill} {s : DayState}
    {l : Lunch} (hwbm : 0 ≤ wbm) (h : LunchInv l s) :
    ∀ s', (loopBody (some l) wbm bm we queue s = .inl s' ∨
      loopBody (some l) wbm bm we queue s = .inr s') → LunchInv l s' := by
  have key : ∀ s', (loopBody (some l) wbm bm we queue s = .inl s' ∨
      loopBody (some l) wbm bm we queue s = .inr s') → LunchInv l s' := by
    refine loopBody_elim (motive := fun out => ∀ s',
      (out = Sum.inl s' ∨ out = Sum.inr s') → LunchInv l s') ?_ ?_ ?_
    · intro l' hl' hle hlt hlast s' hs'
      rcases hs' with hs' | hs' <;> cases hs'
      injection hl' with hl'
      subst hl'
      have hfil : s.blocks.filter (fun b => decide (b.type = BlockType.lunch)) = [] := by
        rcases h with h | ⟨_, hct⟩
        · exact h
        · linarith
      right
      constructor
      · dsimp only
        rw [List.filter_append, hfil]
        simp [lunchBlockOf]
      · exact le_refl _
    · intro l' hl' hle hlt hlast s' hs'
      exfalso
      injection hl' with hl'
      subst hl'
      unfold lastNotLunch at hlast
      rcases hg : s.blocks.getLast? with _ | b
      · rw [hg] at hlast
        exact hlast trivial
      · rw [hg] at hlast
        push_neg at hlast
        have hb : b ∈ s.blocks := mem_of_getLast? hg
        have hbt : b.type = BlockType.lunch := not_not.mp hlast
        have hmem : b ∈ s.blocks.filter (fun b => decide (b.type = BlockType.lunch)) :=
          List.mem_filter.mpr ⟨hb, by simp [hbt]⟩
        rcases h with hfil | ⟨hfil, hct⟩
        · rw [hfil] at hmem
          cases hmem
        · linarith
    · refine skillStep_elim (motive := fun out => ∀ s',
        (out = Sum.inl s' ∨ out = Sum.inr s') → LunchInv l s') ?_ ?_ ?_ ?_ ?_ ?_
      · intro skill _ _ _ s' hs'
        rcases hs' with hs' | hs' <;> cases hs'
        exact h
      · intro skill _ _ _ s' hs'
        rcases hs' with hs' | hs' <;> cases hs'
        exact h
      · intro skill _ _ _ _ s' hs'
        rcases hs' with hs' | hs' <;> cases hs'
        exact lunchInv_emitWork h skill _
      · intro skill _ _ _ _ s' hs'
        rcases hs' with hs' | hs' <;> cases hs'
        exact h
      · intro skill _ hpos _ hbm _ _ s' hs'
        rcases hs' with hs' | hs' <;> cases hs'
        have hd : 0 ≤ min wbm (s.dailyAllocation skill.id) :=
          le_min hwbm (le_of_lt hpos)
        unfold LunchInv
        dsimp only [emitWork]
        rw [List.filter_append, List.filter_append]
        have hw : List.filter (fun b => decide (b.type = BlockType.lunch))
            [workBlockOf skill s.currentTime
              (min wbm (s.dailyAllocation skill.id))] = [] := by
          simp [workBlockOf]
        have hbrk : List.filter (fun b => decide (b.type = BlockType.lunch))
            [breakBlockOf (s.currentTime + min wbm (s.dailyAllocation skill.id)) bm] = [] := by
          simp [breakBlockOf]
        rw [hw, hbrk, List.append_nil, List.append_nil]
        rcases h with hfil | ⟨hfil, hct⟩
        · left
          exact hfil
        · right
          have hct' : timeToMinutes l.start + l.duration ≤ s.currentTime := hct
          exact ⟨hfil, by linarith⟩
      · intro skill _ hpos _ _ s' hs'
        rcases hs' with hs' | hs' <;> cases hs'
        have hd : 0 ≤ min wbm (s.dailyAllocation skill.id) :=
          le_min hwbm (le_of_lt hpos)
        unfold LunchInv
        dsimp only [emitWork]
        rw [List.filter_append]
        have hw : List.filter (fun b => decide (b.type = BlockType.lunch))
            [workBlockOf skill s.currentTime
              (min wbm (s.dailyAllocation skill.id))] = [] := by
          simp [workBlockOf]
        rw [hw, List.append_nil]
        rcases h with hfil | ⟨hfil, hct⟩
        · left
          exact hfil
        · right
          have hct' : timeToMinutes l.start + l.duration ≤ s.currentTime := hct
          exact ⟨hfil, by linarith⟩
  exact key

theorem dayLoop_lunchInv {wbm bm we : ℚ} {queue : List Skill} {l : Lunch}
    (hwbm : 0 ≤ wbm) :
    ∀ (n : ℕ) (s : DayState), LunchInv l s →
      LunchInv l (dayLoop (some l) wbm bm we queue n s).1 :=
  dayLoop_rec (LunchInv l) (LunchInv l) (fun _ h => h)
    (fun _ s' _ _ he h => loopBody_lunchInv hwbm h s' (Or.inl he))
    (fun _ s' _ _ he h => loopBody_lunchInv hwbm h s' (Or.inr he))

theorem filter_lunch_eq_nil_of_any_false {blocks : List ScheduleBlock}
    (h : blocks.any (fun b => decide (b.type = BlockType.lunch)) = false) :
    blocks.filter (fun b => decide (b.type = BlockType.lunch)) = [] := by
  rw [List.filter_eq_nil_iff]
  intro b hb
  intro hc
  have : blocks.any (fun b => decide (b.type = BlockType.lunch)) = true :=
    List.any_eq_true.mpr ⟨b, hb, hc⟩
  rw [h] at this
  cases this

theorem dayFinalBlocks_lunch (fuel : ℕ) (skills : List Skill)
    (settings : Settings) (st : SchedState) {l : Lunch}
    (hl : settings.lunch = some l) (hwbm : 0 ≤ settings.workBlockMins)
    (h1 : windowStartOf settings ≤ timeToMinutes l.start)
    (h2 : timeToMinutes l.start < windowEndOf settings) :
    (dayFinalBlocks fuel skills settings st).filter
      (fun b => decide (b.type = BlockType.lunch)) = [lunchBlockOf l] := by
  have hinv : LunchInv l (dayRun fuel skills settings st).1 := by
    unfold dayRun
    rw [hl]
    apply dayLoop_lunchInv hwbm
    left
    rfl
  have hback : (lunchBackfill settings.lunch (windowStartOf settings)
      (windowEndOf settings) (dayRun fuel skills settings st).1.blocks).filter
        (fun b => decide (b.type = BlockType.lunch)) = [lunchBlockOf l] := by
    rw [hl]
    unfold lunchBackfill
    dsimp only
    by_cases hany : (dayRun fuel skills settings st).1.blocks.any
        (fun b => decide (b.type = BlockType.lunch)) = true
    · rw [if_neg (by simp [hany])]
      rcases hinv with hfil | ⟨hfil, _⟩
      · exfalso
        rcases List.any_eq_true.mp hany with ⟨b, hb, hbt⟩
        have : b ∈ (dayRun fuel skills settings st).1.blocks.filter
            (fun b => decide (b.type = BlockType.lunch)) :=
          List.mem_filter.mpr ⟨hb, hbt⟩
        rw [hfil] at this
        cases this
      · exact hfil
    · have hany' : (dayRun fuel skills settings st).1.blocks.any
          (fun b => decide (b.type = BlockType.lunch)) = false := by
        simpa using hany
      rw [if_pos (by simp [hany'])]
      rw [if_pos ⟨h1, h2⟩]
      rw [List.filter_append, filter_lunch_eq_nil_of_any_false hany']
      simp [lunchBlockOf]
  unfold dayFinalBlocks
  rw [bufferFill_filter _ (fun a b => rfl)]
  have hperm := List.perm_insertionSort blockLE
    (lunchBackfill settings.lunch (windowStartOf settings)
      (windowEndOf settings) (dayRun fuel skills settings st).1.blocks)
  have hfp := List.Perm.filter (fun b => decide (b.type = BlockType.lunch)) hperm
  rw [hback] at hfp
  exact List.perm_singleton.mp hfp

/-- C7.  If a lunch is configured, the work-block length is nonnegative
(data model) and the lunch start lies inside the working window, then
every returned day contains exactly one lunch block — the block from
`lunch.start` lasting `lunch.duration` minutes — even when no work block
reaches the lunch window. -/
theorem lunch_exactly_one (fuel : ℕ) (today : ℤ) (skills : List Skill)
    (settings : Settings) (l : Lunch) (hl : settings.lunch = some l)
    (hwbm : 0 ≤ settings.workBlockMins)
    (h1 : timeToMinutes settings.startTime ≤ timeToMinutes l.start)
    (h2 : timeToMinutes l.start < timeToMinutes settings.endTime) :
    ∀ day ∈ schedOf (generateSchedule fuel today skills settings),
      day.blocks.filter (fun b => decide (b.type = BlockType.lunch)) =
        [lunchBlockOf l] := by
  cases hres : generateSchedule fuel today skills settings with
  | error e =>
    intro day hday
    cases hday
  | ok p =>
    rcases p with ⟨sched, summ⟩
    obtain ⟨hsched, _⟩ := generateSchedule_ok hres
    have hso : schedOf (Except.ok (sched, summ) :
        Except SchedError (List ScheduleDay × List ScheduleSummary)) = sched := rfl
    rw [hso, hsched]
    have hP : ∀ day ∈ (runDays fuel skills settings (datesOf today settings)
        (initState skills)).1.generatedSchedule,
        day.blocks.filter (fun b => decide (b.type = BlockType.lunch)) =
          [lunchBlockOf l] := by
      apply runDays_preserves
        (P := fun st => ∀ day ∈ st.generatedSchedule,
          day.blocks.filter (fun b => decide (b.type = BlockType.lunch)) =
            [lunchBlockOf l])
      · intro date st _ _ _ _ hinv day hday
        have hpsched : (pushDay fuel skills settings date st).generatedSchedule =
            st.generatedSchedule ++
              [{ date := date, blocks := dayFinalBlocks fuel skills settings st }] := rfl
        rw [hpsched] at hday
        rcases List.mem_append.mp hday with hold | hnew
        · exact hinv day hold
        · have hday2 : day =
              (⟨date, dayFinalBlocks fuel skills settings st⟩ : ScheduleDay) := by
            simpa using hnew
          rw [hday2]
          exact dayFinalBlocks_lunch fuel skills settings st hl hwbm h1 h2
      · intro day hday
        cases hday
    exact hP

unseal Rat.add Rat.mul Rat.sub Rat.inv in
/-- Witness for C7: Scenario C (Monthly, one date, lunch 13:00 for 60
minutes inside 09:00–17:00), with the claim's hypotheses checked at this
concrete input. -/
theorem lunch_exactly_one_witness :
    (Settings.lunch
      { mode := .Monthly, dailyHours := 0, startDate := 0, endDate := 0,
        startTime := "09:00", endTime := "17:00", workBlockMins := 50,
        breakMins := 10, lunch := some { start := "13:00", duration := 60 } } =
      some { start := "13:00", duration := 60 }) ∧
    (0 : ℚ) ≤ 50 ∧
    timeToMinutes "09:00" ≤ timeToMinutes "13:00" ∧
    timeToMinutes "13:00" < timeToMinutes "17:00" ∧
    ∀ day ∈ schedOf (generateSchedule 300 0
      [{ id := "s1", name := "A", priority := Priority.High, estHours := 1 }]
      { mode := .Monthly, dailyHours := 0, startDate := 0, endDate := 0,
        startTime := "09:00", endTime := "17:00", workBlockMins := 50,
        breakMins := 10, lunch := some { start := "13:00", duration := 60 } }),
      day.blocks.filter (fun b => decide (b.type = BlockType.lunch)) =
        [lunchBlockOf { start := "13:00", duration := 60 }] :=
  ⟨rfl, by decide, by decide, by decide,
    lunch_exactly_one 300 0
      [{ id := "s1", name := "A", priority := Priority.High, estHours := 1 }]
      { mode := .Monthly, dailyHours := 0, startDate := 0, endDate := 0,
        startTime := "09:00", endTime := "17:00", workBlockMins := 50,
        breakMins := 10, lunch := some { start := "13:00", duration := 60 } }
      { start := "13:00", duration := 60 } rfl (by decide) (by decide) (by decide)⟩

/-! ### Claim C9: well-formed, sorted, non-empty day blocks -/

theorem blocksWF_append {s : DayState} (h : BlocksWF s) (nb : ScheduleBlock)
    (hnb : 0 < nb.minutes ∧ nb.minutes = nb.stop - nb.start) :
    ∀ b ∈ s.blocks ++ [nb], 0 < b.minutes ∧ b.minutes = b.stop - b.start := by
  intro b hb
  rcases List.mem_append.mp hb with hb | hb
  · exact h b hb
  · have : b = nb := by simpa using hb
    rw [this]
    exact hnb

theorem loopBody_blocksWF {lunch : Option Lunch} {wbm bm we : ℚ}
    {queue : List Skill} {s : DayState}
    (hwbm : 0 < wbm) (hlunch : ∀ l, lunch = some l → 0 < l.duration)
    (h : BlocksWF s) :
    ∀ s', (loopBody lunch wbm bm we queue s = .inl s' ∨
      loopBody lunch wbm bm we queue s = .inr s') → BlocksWF s' := by
  refine loopBody_elim (motive := fun out => ∀ s',
    (out = Sum.inl s' ∨ out = Sum.inr s') → BlocksWF s') ?_ ?_ ?_
  · intro l hl _ _ _ s' hs'
    rcases hs' with hs' | hs' <;> cases hs'
    intro b hb
    refine blocksWF_append h (lunchBlockOf l) ?_ b hb
    refine ⟨hlunch l hl, ?_⟩
    unfold lunchBlockOf
    dsimp only
    ring
  · intro l _ _ _ _ s' hs'
    rcases hs' with hs' | hs' <;> cases hs'
    exact h
  · refine skillStep_elim (motive := fun out => ∀ s',
      (out = Sum.inl s' ∨ out = Sum.inr s') → BlocksWF s') ?_ ?_ ?_ ?_ ?_ ?_
    · intro skill _ _ _ s' hs'
      rcases hs' with hs' | hs' <;> cases hs'
      exact h
    · intro skill _ _ _ s' hs'
      rcases hs' with hs' | hs' <;> cases hs'
      exact h
    · intro skill _ _ _ hr s' hs'
      rcases hs' with hs' | hs' <;> cases hs'
      intro b hb
      refine blocksWF_append h _ ?_ b hb
      refine ⟨hr, ?_⟩
      unfold workBlockOf
      dsimp only
      ring
    · intro skill _ _ _ _ s' hs'
      rcases hs' with hs' | hs' <;> cases hs'
      exact h
    · intro skill _ hpos _ hbm _ _ s' hs'
      rcases hs' with hs' | hs' <;> cases hs'
      have hd : 0 < min wbm (s.dailyAllocation skill.id) := lt_min hwbm hpos
      intro b hb
      have hwork : ∀ c ∈ s.blocks ++ [workBlockOf skill s.currentTime
          (min wbm (s.dailyAllocation skill.id))],
          0 < c.minutes ∧ c.minutes = c.stop - c.start := by
        apply blocksWF_append h
        refine ⟨hd, ?_⟩
        unfold workBlockOf
        dsimp only
        ring
      refine blocksWF_append (s := { s with
        blocks := s.blocks ++ [workBlockOf skill s.currentTime
          (min wbm (s.dailyAllocation skill.id))] }) hwork _ ?_ b hb
      refine ⟨hbm, ?_⟩
      unfold breakBlockOf
      dsimp only
      ring
    · intro skill _ hpos _ _ s' hs'
      rcases hs' with hs' | hs' <;> cases hs'
      have hd : 0 < min wbm (s.dailyAllocation skill.id) := lt_min hwbm hpos
      intro b hb
      refine blocksWF_append h _ ?_ b hb
      refine ⟨hd, ?_⟩
      unfold workBlockOf
      dsimp only
      ring

theorem dayLoop_blocksWF {lunch : Option Lunch} {wbm bm we : ℚ}
    {queue : List Skill} (hwbm : 0 < wbm)
    (hlunch : ∀ l, lunch = some l → 0 < l.duration) :
    ∀ (n : ℕ) (s : DayState), BlocksWF s →
      BlocksWF (dayLoop lunch wbm bm we queue n s).1 :=
  dayLoop_rec BlocksWF BlocksWF (fun _ h => h)
    (fun _ s' _ _ he h => loopBody_blocksWF hwbm hlunch h s' (Or.inl he))
    (fun _ s' _ _ he h => loopBody_blocksWF hwbm hlunch h s' (Or.inr he))

/-! ### Structure of the buffer fill output -/

theorem mem_foldl_bufferStep :
    ∀ (bs : List ScheduleBlock) (acc : List ScheduleBlock × ℚ)
      (x : ScheduleBlock), x ∈ (bs.foldl bufferStep acc).1 →
      x ∈ acc.1 ∨ x ∈ bs ∨ ∃ a c : ℚ, a < c ∧ x = bufferBlockOf a c := by
  intro bs
  induction bs with
  | nil =>
    intro acc x hx
    left
    exact hx
  | cons b bs ih =>
    intro acc x hx
    rw [List.foldl_cons] at hx
    rcases ih _ x hx with hacc | hbs | hbuf
    · unfold bufferStep at hacc
      dsimp only at hacc
      by_cases hgap : acc.2 < b.start
      · rw [if_pos hgap] at hacc
        rcases List.mem_append.mp hacc with h1 | h2
        · rcases List.mem_append.mp h1 with h3 | h4
          · left
            exact h3
          · right; right
            exact ⟨acc.2, b.start, hgap, by simpa using h4⟩
        · right; left
          have : x = b := by simpa using h2
          rw [this]
          exact List.mem_cons_self b bs
      · rw [if_neg hgap] at hacc
        rcases List.mem_append.mp hacc with h1 | h2
        · left
          exact h1
        · right; left
          have : x = b := by simpa using h2
          rw [this]
          exact List.mem_cons_self b bs
    · right; left
      exact List.mem_cons_of_mem _ hbs
    · right; right
      exact hbuf

theorem mem_bufferFill {ws we : ℚ} {bs : List ScheduleBlock}
    {x : ScheduleBlock} (hx : x ∈ bufferFill ws we bs) :
    x ∈ bs ∨ ∃ a c : ℚ, a < c ∧ x = bufferBlockOf a c := by
  unfold bufferFill at hx
  dsimp only at hx
  by_cases hend : (bs.foldl bufferStep ([], ws)).2 < we
  · rw [if_pos hend] at hx
    rcases List.mem_append.mp hx with h1 | h2
    · rcases mem_foldl_bufferStep bs ([], ws) x h1 with h3 | h4 | h5
      · cases h3
      · left
        exact h4
      · right
        exact h5
    · right
      exact ⟨(bs.foldl bufferStep ([], ws)).2, we, hend, by simpa using h2⟩
  · rw [if_neg hend] at hx
    rcases mem_foldl_bufferStep bs ([], ws) x hx with h3 | h4 | h5
    · cases h3
    · left
      exact h4
    · right
      exact h5

theorem foldl_bufferStep_length :
    ∀ (bs : List ScheduleBlock) (acc : List ScheduleBlock × ℚ),
      acc.1.length + bs.length ≤ (bs.foldl bufferStep acc).1.length := by
  intro bs
  induction bs with
  | nil =>
    intro acc
    simp
  | cons b bs ih =>
    intro acc
    rw [List.foldl_cons]
    have h1 := ih (bufferStep acc b)
    have h2 : acc.1.length + 1 ≤ (bufferStep acc b).1.length := by
      unfold bufferStep
      dsimp only
      by_cases hgap : acc.2 < b.start
      · rw [if_pos hgap]
        simp
      · rw [if_neg hgap]
        simp
    calc acc.1.length + (b :: bs).length
        = acc.1.length + 1 + bs.length := by
          simp [List.length_cons]
          ring
      _ ≤ (bufferStep acc b).1.length + bs.length := by
          omega
      _ ≤ (bs.foldl bufferStep (bufferStep acc b)).1.length := h1

theorem bufferFill_ne_nil {ws we : ℚ} (hlt : ws < we)
    (bs : List ScheduleBlock) : bufferFill ws we bs ≠ [] := by
  unfold bufferFill
  dsimp only
  by_cases hend : (bs.foldl bufferStep ([], ws)).2 < we
  · rw [if_pos hend]
    intro hc
    have := congrArg List.length hc
    rw [List.length_append] at this
    simp at this
  · rw [if_neg hend]
    intro hc
    cases bs with
    | nil =>
      exact hend (by simpa using hlt)
    | cons b bs' =>
      have := foldl_bufferStep_length (b :: bs') ([], ws)
      rw [hc] at this
      simp at this

theorem foldl_bufferStep_sorted :
    ∀ (bs : List ScheduleBlock) (acc : List ScheduleBlock × ℚ),
      List.Sorted blockLE bs →
      (∀ b ∈ bs, b.start ≤ b.stop) →
      List.Sorted blockLE acc.1 →
      (∀ d ∈ acc.1, d.start ≤ acc.2) →
      (∀ d ∈ acc.1, ∀ r ∈ bs, d.start ≤ r.start) →
      List.Sorted blockLE (bs.foldl bufferStep acc).1 ∧
      ∀ d ∈ (bs.foldl bufferStep acc).1, d.start ≤ (bs.foldl bufferStep acc).2 := by
  intro bs
  induction bs with
  | nil =>
    intro acc _ _ hs hle _
    exact ⟨hs, hle⟩
  | cons b bs ih =>
    intro acc hsort hwf haccs haccle haccfut
    rw [List.foldl_cons]
    obtain ⟨hbr, htail⟩ := List.sorted_cons.mp hsort
    have hbwf : b.start ≤ b.stop := hwf b (List.mem_cons_self b bs)
    have hstep1 : (bufferStep acc b).1 =
        (if acc.2 < b.start then acc.1 ++ [bufferBlockOf acc.2 b.start]
          else acc.1) ++ [b] := rfl
    have hstep2 : (bufferStep acc b).2 = b.stop := rfl
    have hgapmem : ∀ d ∈ (if acc.2 < b.start then
        acc.1 ++ [bufferBlockOf acc.2 b.start] else acc.1),
        d.start ≤ b.start := by
      intro d hd
      by_cases hgap : acc.2 < b.start
      · rw [if_pos hgap] at hd
        rcases List.mem_append.mp hd with h1 | h2
        · exact haccfut d h1 b (List.mem_cons_self b bs)
        · have : d = bufferBlockOf acc.2 b.start := by simpa using h2
          rw [this]
          exact le_of_lt hgap
      · rw [if_neg hgap] at hd
        exact haccfut d hd b (List.mem_cons_self b bs)
    have hgapsorted : List.Sorted blockLE (if acc.2 < b.start then
        acc.1 ++ [bufferBlockOf acc.2 b.start] else acc.1) := by
      by_cases hgap : acc.2 < b.start
      · rw [if_pos hgap]
        rw [List.Sorted, List.pairwise_append]
        refine ⟨haccs, List.pairwise_singleton _ _, ?_⟩
        intro d hd e he
        have : e = bufferBlockOf acc.2 b.start := by simpa using he
        rw [this]
        exact haccle d hd
      · rw [if_neg hgap]
        exact haccs
    apply ih (bufferStep acc b) htail
      (fun x hx => hwf x (List.mem_cons_of_mem _ hx))
    · rw [hstep1]
      rw [List.Sorted, List.pairwise_append]
      refine ⟨hgapsorted, List.pairwise_singleton _ _, ?_⟩
      intro d hd e he
      have : e = b := by simpa using he
      rw [this]
      exact hgapmem d hd
    · rw [hstep1, hstep2]
      intro d hd
      rcases List.mem_append.mp hd with h1 | h2
      · exact le_trans (hgapmem d h1) hbwf
      · have : d = b := by simpa using h2
        rw [this]
        exact hbwf
    · rw [hstep1]
      intro d hd r hr
      rcases List.mem_append.mp hd with h1 | h2
      · exact le_trans (hgapmem d h1) (hbr r hr)
      · have : d = b := by simpa using h2
        rw [this]
        exact hbr r hr

theorem bufferFill_sorted (ws we : ℚ) {bs : List ScheduleBlock}
    (hs : List.Sorted blockLE bs) (hwf : ∀ b ∈ bs, b.start ≤ b.stop) :
    List.Sorted blockLE (bufferFill ws we bs) := by
  obtain ⟨hS, hL⟩ := foldl_bufferStep_sorted bs ([], ws) hs hwf
    List.sorted_nil (by intro d hd; cases hd) (by intro d hd r _; cases hd)
  unfold bufferFill
  dsimp only
  by_cases hend : (bs.foldl bufferStep ([], ws)).2 < we
  · rw [if_pos hend]
    rw [List.Sorted, List.pairwise_append]
    refine ⟨hS, List.pairwise_singleton _ _, ?_⟩
    intro d hd e he
    have : e = bufferBlockOf (bs.foldl bufferStep ([], ws)).2 we := by
      simpa using he
    rw [this]
    exact hL d hd
  · rw [if_neg hend]
    exact hS

theorem mem_lunchBackfill {lunch : Option Lunch} {ws we : ℚ}
    {bs : List ScheduleBlock} {x : ScheduleBlock}
    (hx : x ∈ lunchBackfill lunch ws we bs) :
    x ∈ bs ∨ ∃ l, lunch = some l ∧ x = lunchBlockOf l := by
  cases lunch with
  | none =>
    left
    exact hx
  | some l =>
    unfold lunchBackfill at hx
    dsimp only at hx
    split_ifs at hx
    · left
      exact hx
    · rcases List.mem_append.mp hx with h1 | h2
      · left
        exact h1
      · right
        exact ⟨l, rfl, by simpa using h2⟩
    · left
      exact hx

theorem dayFinalBlocks_wf (fuel : ℕ) (skills : List Skill)
    (settings : Settings) (st : SchedState)
    (hwbm : 0 < settings.workBlockMins)
    (hlunch : ∀ l, settings.lunch = some l → 0 < l.duration) :
    ∀ b ∈ dayFinalBlocks fuel skills settings st,
      0 < b.minutes ∧ b.minutes = b.stop - b.start := by
  have hloop : BlocksWF (dayRun fuel skills settings st).1 := by
    unfold dayRun
    apply dayLoop_blocksWF hwbm hlunch
    intro b hb
    cases hb
  intro b hb
  unfold dayFinalBlocks at hb
  rcases mem_bufferFill hb with hmem | ⟨a, c, hac, rfl⟩
  · rw [List.mem_insertionSort] at hmem
    rcases mem_lunchBackfill hmem with hmem2 | ⟨l, hl, rfl⟩
    · exact hloop b hmem2
    · refine ⟨hlunch l hl, ?_⟩
      unfold lunchBlockOf
      dsimp only
      ring
  · exact ⟨sub_pos.mpr hac, rfl⟩

theorem dayFinalBlocks_sorted (fuel : ℕ) (skills : List Skill)
    (settings : Settings) (st : SchedState)
    (hwbm : 0 < settings.workBlockMins)
    (hlunch : ∀ l, settings.lunch = some l → 0 < l.duration) :
    List.Sorted blockLE (dayFinalBlocks fuel skills settings st) := by
  have hloop : BlocksWF (dayRun fuel skills settings st).1 := by
    unfold dayRun
    apply dayLoop_blocksWF hwbm hlunch
    intro b hb
    cases hb
  unfold dayFinalBlocks
  apply bufferFill_sorted
  · exact List.sorted_insertionSort blockLE _
  · intro b hb
    rw [List.mem_insertionSort] at hb
    rcases mem_lunchBackfill hb with hmem2 | ⟨l, hl, rfl⟩
    · obtain ⟨h1, h2⟩ := hloop b hmem2
      linarith
    · have := hlunch l hl
      unfold lunchBlockOf
      dsimp only
      linarith

/-- C9.  With a positive work-block length (the data model requires at
least 25) and any configured lunch of positive duration, every returned
day has a non-empty block list sorted by ascending start time, and every
block carries positive `minutes` equal to its end minus its start. -/
theorem day_blocks_wf (fuel : ℕ) (today : ℤ) (skills : List Skill)
    (settings : Settings) (hwbm : 0 < settings.workBlockMins)
    (hlunch : ∀ l, settings.lunch = some l → 0 < l.duration) :
    ∀ day ∈ schedOf (generateSchedule fuel today skills settings),
      day.blocks ≠ [] ∧ List.Sorted blockLE day.blocks ∧
      ∀ b ∈ day.blocks, 0 < b.minutes ∧ b.minutes = b.stop - b.start := by
  cases hres : generateSchedule fuel today skills settings with
  | error e =>
    intro day hday
    cases hday
  | ok p =>
    rcases p with ⟨sched, summ⟩
    obtain ⟨hsched, _⟩ := generateSchedule_ok hres
    have hso : schedOf (Except.ok (sched, summ) :
        Except SchedError (List ScheduleDay × List ScheduleSummary)) = sched := rfl
    rw [hso, hsched]
    apply runDays_preserves
      (P := fun st => ∀ day ∈ st.generatedSchedule,
        day.blocks ≠ [] ∧ List.Sorted blockLE day.blocks ∧
        ∀ b ∈ day.blocks, 0 < b.minutes ∧ b.minutes = b.stop - b.start)
    · intro date st hw _ _ _ hinv day hday
      have hpsched : (pushDay fuel skills settings date st).generatedSchedule =
          st.generatedSchedule ++
            [{ date := date, blocks := dayFinalBlocks fuel skills settings st }] := rfl
      rw [hpsched] at hday
      rcases List.mem_append.mp hday with hold | hnew
      · exact hinv day hold
      · have hday2 : day =
            (⟨date, dayFinalBlocks fuel skills settings st⟩ : ScheduleDay) := by
          simpa using hnew
        rw [hday2]
        push_neg at hw
        refine ⟨bufferFill_ne_nil (by linarith) _, ?_, ?_⟩
        · exact dayFinalBlocks_sorted fuel skills settings st hwbm hlunch
        · exact dayFinalBlocks_wf fuel skills settings st hwbm hlunch
    · intro day hday
      cases hday

unseal Rat.add Rat.mul Rat.sub Rat.inv in
/-- Witness for C9: Scenario A's input (no lunch), with the claim's
hypotheses checked at this concrete input. -/
theorem day_blocks_wf_witness :
    0 < scenarioASettings.workBlockMins ∧
    (∀ l, scenarioASettings.lunch = some l → 0 < l.duration) ∧
    ∀ day ∈ schedOf (generateSchedule 200 0 scenarioASkills scenarioASettings),
      day.blocks ≠ [] ∧ List.Sorted blockLE day.blocks ∧
      ∀ b ∈ day.blocks, 0 < b.minutes ∧ b.minutes = b.stop - b.start :=
  ⟨by decide, (by intro l hl; cases hl),
    day_blocks_wf 200 0 scenarioASkills scenarioASettings (by decide)
      (by intro l hl; cases hl)⟩

/-! ### Claim C1: the partition invariant -/

unseal Rat.add Rat.mul Rat.sub Rat.inv in
/-- C1, counterexample.  With 45-minute work blocks and no breaks, work
blocks run 09:00, 09:45, …, 12:45–13:30; the cursor lands inside the
lunch window only at 13:30, so the emitted lunch block 13:00–14:00
overlaps the work block 12:45–13:30 and the day's blocks do not
partition the window. -/
theorem partition_counterexample :
    ¬ (∀ day ∈ schedOf (generateSchedule 200 0 overlapSkills overlapSettings),
        Tiles (timeToMinutes overlapSettings.startTime)
          (timeToMinutes overlapSettings.endTime) day.blocks) := by
  decide

theorem dailyAllocationOf_mult5 (allocatable : ℚ) (rem : String → ℚ)
    (active : List Skill) (id : String) :
    IsMult5 (dailyAllocationOf allocatable rem active id) := by
  unfold dailyAllocationOf
  rcases mapOfPairs_spec (active.map (fun s =>
    (s.id, roundTo5 (min (allocatable * PRIORITY_WEIGHTS s.priority /
      totalWeightOf active) (rem s.id))))) id with h0 | ⟨p, hmem, _, hval⟩
  · rw [h0]
    exact IsMult5.zero
  · rw [hval]
    rcases List.mem_map.mp hmem with ⟨sk, _, rfl⟩
    exact roundTo5_mult5 _

theorem Tiles.snoc {a b : ℚ} {l : List ScheduleBlock} (hl : Tiles a b l)
    (nb : ScheduleBlock) (h1 : nb.start = b) :
    Tiles a nb.stop (l ++ [nb]) :=
  Tiles.append hl ⟨h1, rfl⟩

theorem skillStep_tileInv {ws wbm bm we : ℚ} {queue : List Skill}
    {s : DayState} (hwbm : 0 < wbm) (h5w : IsMult5 wbm) (h5b : IsMult5 bm)
    (h5win : IsMult5 (we - ws)) (hguard : s.currentTime < we)
    (h : TileInv ws we s) :
    ∀ s', (skillStep wbm bm we queue s = .inl s' → TileInv ws we s') ∧
      (skillStep wbm bm we queue s = .inr s' → TileOut ws we s') := by
  obtain ⟨ht, hle, h5ct, h5a, hwf⟩ := h
  have key : ∀ s', (skillStep wbm bm we queue s = Sum.inl s' → TileInv ws we s') ∧
      (skillStep wbm bm we queue s = Sum.inr s' → TileOut ws we s') := by
    refine skillStep_elim (motive := fun out => ∀ s',
      (out = Sum.inl s' → TileInv ws we s') ∧
      (out = Sum.inr s' → TileOut ws we s')) ?_ ?_ ?_ ?_ ?_ ?_
    · intro skill _ _ _ s'
      constructor
      · intro hs'
        cases hs'
      · intro hs'
        cases hs'
        exact ⟨s.currentTime, ht, hle, hwf⟩
    · intro skill _ _ _ s'
      constructor
      · intro hs'
        cases hs'
        exact ⟨ht, hle, h5ct, h5a, hwf⟩
      · intro hs'
        cases hs'
    · intro skill _ hpos hclip hr s'
      constructor
      · intro hs'
        cases hs'
      · intro hs'
        cases hs'
        have hwe5 : roundTo5 (we - s.currentTime) = we - s.currentTime := by
          apply roundTo5_eq_self
          have he : we - s.currentTime = (we - ws) - (s.currentTime - ws) := by
            ring
          rw [he]
          exact h5win.sub h5ct
        refine ⟨we, ?_, le_refl we, ?_⟩
        · show Tiles ws we (s.blocks ++
            [workBlockOf skill s.currentTime (roundTo5 (we - s.currentTime))])
          have h1 := Tiles.snoc ht
            (workBlockOf skill s.currentTime (roundTo5 (we - s.currentTime))) rfl
          have h2 : (workBlockOf skill s.currentTime
              (roundTo5 (we - s.currentTime))).stop = we := by
            show s.currentTime + roundTo5 (we - s.currentTime) = we
            rw [hwe5]
            ring
          rw [h2] at h1
          exact h1
        · intro b hb
          have hb' : b ∈ s.blocks ++
              [workBlockOf skill s.currentTime (roundTo5 (we - s.currentTime))] := hb
          rcases List.mem_append.mp hb' with hb1 | hb2
          · exact hwf b hb1
          · have hbe : b = workBlockOf skill s.currentTime
                (roundTo5 (we - s.currentTime)) := by simpa using hb2
            rw [hbe]
            show s.currentTime ≤ s.currentTime + roundTo5 (we - s.currentTime)
            linarith
    · intro skill _ hpos hclip hr s'
      constructor
      · intro hs'
        cases hs'
      · intro hs'
        cases hs'
        exfalso
        have hwe5 : roundTo5 (we - s.currentTime) = we - s.currentTime := by
          apply roundTo5_eq_self
          have he : we - s.currentTime = (we - ws) - (s.currentTime - ws) := by
            ring
          rw [he]
          exact h5win.sub h5ct
        rw [hwe5] at hr
        linarith
    · intro skill _ hpos hfit hbm hfit2 _ s'
      constructor
      · intro hs'
        cases hs'
        have hd5 : IsMult5 (min wbm (s.dailyAllocation skill.id)) :=
          IsMult5.min h5w (h5a skill.id)
        have hd0 : 0 < min wbm (s.dailyAllocation skill.id) := lt_min hwbm hpos
        refine ⟨?_, ?_, ?_, ?_, ?_⟩
        · show Tiles ws (s.currentTime + min wbm (s.dailyAllocation skill.id) + bm)
            ((s.blocks ++ [workBlockOf skill s.currentTime
              (min wbm (s.dailyAllocation skill.id))]) ++
             [breakBlockOf (s.currentTime + min wbm (s.dailyAllocation skill.id)) bm])
          have h1 := Tiles.snoc ht
            (workBlockOf skill s.currentTime
              (min wbm (s.dailyAllocation skill.id))) rfl
          have h2 := Tiles.snoc h1
            (breakBlockOf (s.currentTime + min wbm (s.dailyAllocation skill.id)) bm)
            rfl
          exact h2
        · show s.currentTime + min wbm (s.dailyAllocation skill.id) + bm ≤ we
          exact hfit2
        · show IsMult5
            (s.currentTime + min wbm (s.dailyAllocation skill.id) + bm - ws)
          have he : s.currentTime + min wbm (s.dailyAllocation skill.id) + bm - ws =
              (s.currentTime - ws) + min wbm (s.dailyAllocation skill.id) + bm := by
            ring
          rw [he]
          exact (h5ct.add hd5).add h5b
        · intro id
          show IsMult5 (mapSet s.dailyAllocation skill.id
            (s.dailyAllocation skill.id - min wbm (s.dailyAllocation skill.id)) id)
          by_cases hid : id = skill.id
          · subst hid
            rw [mapSet_same]
            exact (h5a skill.id).sub hd5
          · rw [mapSet_other _ _ hid]
            exact h5a id
        · intro b hb
          have hb' : b ∈ (s.blocks ++ [workBlockOf skill s.currentTime
              (min wbm (s.dailyAllocation skill.id))]) ++
              [breakBlockOf (s.currentTime +
                min wbm (s.dailyAllocation skill.id)) bm] := hb
          rcases List.mem_append.mp hb' with hb1 | hb2
          · rcases List.mem_append.mp hb1 with hb3 | hb4
            · exact hwf b hb3
            · have hbe : b = workBlockOf skill s.currentTime
                  (min wbm (s.dailyAllocation skill.id)) := by simpa using hb4
              rw [hbe]
              show s.currentTime ≤ s.currentTime +
                min wbm (s.dailyAllocation skill.id)
              linarith
          · have hbe : b = breakBlockOf
                (s.currentTime + min wbm (s.dailyAllocation skill.id)) bm := by
              simpa using hb2
            rw [hbe]
            show s.currentTime + min wbm (s.dailyAllocation skill.id) ≤
              s.currentTime + min wbm (s.dailyAllocation skill.id) + bm
            linarith
      · intro hs'
        cases hs'
    · intro skill _ hpos hfit _ s'
      constructor
      · intro hs'
        cases hs'
        have hd5 : IsMult5 (min wbm (s.dailyAllocation skill.id)) :=
          IsMult5.min h5w (h5a skill.id)
        have hd0 : 0 < min wbm (s.dailyAllocation skill.id) := lt_min hwbm hpos
        refine ⟨?_, ?_, ?_, ?_, ?_⟩
        · show Tiles ws (s.currentTime + min wbm (s.dailyAllocation skill.id))
            (s.blocks ++ [workBlockOf skill s.currentTime
              (min wbm (s.dailyAllocation skill.id))])
          exact Tiles.snoc ht
            (workBlockOf skill s.currentTime
              (min wbm (s.dailyAllocation skill.id))) rfl
        · show s.currentTime + min wbm (s.dailyAllocation skill.id) ≤ we
          exact hfit
        · show IsMult5
            (s.currentTime + min wbm (s.dailyAllocation skill.id) - ws)
          have he : s.currentTime + min wbm (s.dailyAllocation skill.id) - ws =
              (s.currentTime - ws) + min wbm (s.dailyAllocation skill.id) := by
            ring
          rw [he]
          exact h5ct.add hd5
        · intro id
          show IsMult5 (mapSet s.dailyAllocation skill.id
            (s.dailyAllocation skill.id - min wbm (s.dailyAllocation skill.id)) id)
          by_cases hid : id = skill.id
          · subst hid
            rw [mapSet_same]
            exact (h5a skill.id).sub hd5
          · rw [mapSet_other _ _ hid]
            exact h5a id
        · intro b hb
          have hb' : b ∈ s.blocks ++ [workBlockOf skill s.currentTime
              (min wbm (s.dailyAllocation skill.id))] := hb
          rcases List.mem_append.mp hb' with hb1 | hb2
          · exact hwf b hb1
          · have hbe : b = workBlockOf skill s.currentTime
                (min wbm (s.dailyAllocation skill.id)) := by simpa using hb2
            rw [hbe]
            show s.currentTime ≤ s.currentTime +
              min wbm (s.dailyAllocation skill.id)
            linarith
      · intro hs'
        cases hs'
  exact key

theorem foldl_bufferStep_tiled :
    ∀ (bs : List ScheduleBlock) (acc : List ScheduleBlock) (a X : ℚ),
      Tiles a X bs → bs.foldl bufferStep (acc, a) = (acc ++ bs, X) := by
  intro bs
  induction bs with
  | nil =>
    intro acc a X ht
    have ha : a = X := ht
    subst ha
    simp
  | cons b bs ih =>
    intro acc a X ht
    obtain ⟨h1, h2⟩ := ht
    rw [List.foldl_cons]
    have hstep : bufferStep (acc, a) b = (acc ++ [b], b.stop) := by
      unfold bufferStep
      dsimp only
      rw [if_neg (by rw [h1]; exact lt_irrefl a)]
    rw [hstep, ih (acc ++ [b]) b.stop X h2]
    simp

theorem bufferFill_tiled {ws we X : ℚ} {bs : List ScheduleBlock}
    (ht : Tiles ws X bs) (hXle : X ≤ we) :
    Tiles ws we (bufferFill ws we bs) := by
  unfold bufferFill
  dsimp only
  rw [foldl_bufferStep_tiled bs [] ws X ht]
  dsimp only
  by_cases hend : X < we
  · rw [if_pos hend]
    rw [List.nil_append]
    exact Tiles.snoc ht (bufferBlockOf X we) rfl
  · rw [if_neg hend]
    rw [List.nil_append]
    have hXwe : X = we := le_antisymm hXle (not_lt.mp hend)
    rw [hXwe] at ht
    exact ht

theorem dayRun_tileOut (fuel : ℕ) (skills : List Skill) (settings : Settings)
    (st : SchedState) (hlunch : settings.lunch = none)
    (hwbm : 0 < settings.workBlockMins)
    (h5w : IsMult5 settings.workBlockMins) (h5b : IsMult5 settings.breakMins)
    (h5win : IsMult5 (windowEndOf settings - windowStartOf settings))
    (hwlt : windowStartOf settings ≤ windowEndOf settings) :
    TileOut (windowStartOf settings) (windowEndOf settings)
      (dayRun fuel skills settings st).1 := by
  unfold dayRun
  rw [hlunch]
  apply dayLoop_rec (TileInv (windowStartOf settings) (windowEndOf settings))
    (TileOut (windowStartOf settings) (windowEndOf settings))
  · intro s hs
    obtain ⟨ht, hle2, _, _, hwf⟩ := hs
    exact ⟨s.currentTime, ht, hle2, hwf⟩
  · intro s s' hg _ he hP
    exact (skillStep_tileInv hwbm h5w h5b h5win hg hP s').1 he
  · intro s s' hg _ he hP
    exact (skillStep_tileInv hwbm h5w h5b h5win hg hP s').2 he
  · refine ⟨?_, ?_, ?_, ?_, ?_⟩
    · show windowStartOf settings = windowStartOf settings
      rfl
    · show windowStartOf settings ≤ windowEndOf settings
      exact hwlt
    · show IsMult5 (windowStartOf settings - windowStartOf settings)
      have he : windowStartOf settings - windowStartOf settings = 0 := by ring
      rw [he]
      exact IsMult5.zero
    · intro id
      show IsMult5 (dailyAllocationOf (allocatableOf settings) st.remainingHours
        (activeSkillsOf st.remainingHours skills) id)
      exact dailyAllocationOf_mult5 _ _ _ id
    · intro b hb
      cases hb

theorem dayFinalBlocks_tiles (fuel : ℕ) (skills : List Skill)
    (settings : Settings) (st : SchedState) (hlunch : settings.lunch = none)
    (hout : TileOut (windowStartOf settings) (windowEndOf settings)
      (dayRun fuel skills settings st).1) :
    Tiles (windowStartOf settings) (windowEndOf settings)
      (dayFinalBlocks fuel skills settings st) := by
  obtain ⟨X, ht, hXle, hwf⟩ := hout
  unfold dayFinalBlocks
  rw [hlunch]
  have hback : lunchBackfill none (windowStartOf settings) (windowEndOf settings)
      (dayRun fuel skills settings st).1.blocks =
      (dayRun fuel skills settings st).1.blocks := rfl
  rw [hback]
  rw [List.Sorted.insertionSort_eq (ht.sorted hwf)]
  exact bufferFill_tiled ht hXle

/-- C1, amended.  Without a configured lunch, and with the work-block
length positive and the work-block length, break length, and window
width all multiples of five minutes, every returned day's block list
does partition the window `[startTime, endTime)`: consecutive blocks
abut and the first and last blocks touch the window edges.  (The
original claim fails in general: a lunch block is emitted at its
scheduled position even when the cursor has already run past the lunch
start, overlapping the preceding work block, and an unaligned window
lets the rounded clip block overshoot the window end.) -/
theorem partition_amended (fuel : ℕ) (today : ℤ) (skills : List Skill)
    (settings : Settings) (hlunch : settings.lunch = none)
    (hwbm : 0 < settings.workBlockMins)
    (h5w : IsMult5 settings.workBlockMins)
    (h5b : IsMult5 settings.breakMins)
    (h5win : IsMult5 (timeToMinutes settings.endTime -
      timeToMinutes settings.startTime)) :
    ∀ day ∈ schedOf (generateSchedule fuel today skills settings),
      Tiles (timeToMinutes settings.startTime)
        (timeToMinutes settings.endTime) day.blocks := by
  cases hres : generateSchedule fuel today skills settings with
  | error e =>
    intro day hday
    cases hday
  | ok p =>
    rcases p with ⟨sched, summ⟩
    obtain ⟨hsched, _⟩ := generateSchedule_ok hres
    have hso : schedOf (Except.ok (sched, summ) :
        Except SchedError (List ScheduleDay × List ScheduleSummary)) = sched := rfl
    rw [hso, hsched]
    apply runDays_preserves
      (P := fun st => ∀ day ∈ st.generatedSchedule,
        Tiles (timeToMinutes settings.startTime)
          (timeToMinutes settings.endTime) day.blocks)
    · intro date st hw _ _ _ hinv day hday
      have hpsched : (pushDay fuel skills settings date st).generatedSchedule =
          st.generatedSchedule ++
            [{ date := date, blocks := dayFinalBlocks fuel skills settings st }] := rfl
      rw [hpsched] at hday
      rcases List.mem_append.mp hday with hold | hnew
      · exact hinv day hold
      · have hday2 : day =
            (⟨date, dayFinalBlocks fuel skills settings st⟩ : ScheduleDay) := by
          simpa using hnew
        rw [hday2]
        push_neg at hw
        apply dayFinalBlocks_tiles fuel skills settings st hlunch
        exact dayRun_tileOut fuel skills settings st hlunch hwbm h5w h5b h5win
          (by linarith)
    · intro day hday
      cases hday

unseal Rat.add Rat.mul Rat.sub Rat.inv in
/-- Witness for the amended C1: Scenario A's input has no lunch, a
50-minute work block, a 10-minute break, and the 480-minute window
09:00–17:00, all multiples of five, so its single day partitions the
window. -/
theorem partition_amended_witness :
    scenarioASettings.lunch = none ∧
    0 < scenarioASettings.workBlockMins ∧
    IsMult5 scenarioASettings.workBlockMins ∧
    IsMult5 scenarioASettings.breakMins ∧
    IsMult5 (timeToMinutes scenarioASettings.endTime -
      timeToMinutes scenarioASettings.startTime) ∧
    ∀ day ∈ schedOf (generateSchedule 200 0 scenarioASkills scenarioASettings),
      Tiles (timeToMinutes scenarioASettings.startTime)
        (timeToMinutes scenarioASettings.endTime) day.blocks :=
  ⟨rfl, by decide, ⟨10, by decide⟩, ⟨2, by decide⟩, ⟨96, by decide⟩,
    partition_amended 200 0 scenarioASkills scenarioASettings rfl
      (by decide) ⟨10, by decide⟩ ⟨2, by decide⟩ ⟨96, by decide⟩⟩

theorem mod_shift (i j len : ℕ) (hlen : 0 < len) (hj : j < len) :
    (i + (j + len - i % len) % len) % len = j := by
  have hr : i % len < len := Nat.mod_lt i hlen
  have h1 : (i + (j + len - i % len) % len) % len
      = (i + (j + len - i % len)) % len := by
    conv_lhs => rw [Nat.add_mod]
    conv_rhs => rw [Nat.add_mod]
    rw [Nat.mod_mod_of_dvd _ (dvd_refl len)]
  rw [h1]
  have h2 : i + (j + len - i % len) = len * (i / len) + (j + len) := by
    have hd : i = len * (i / len) + i % len := (Nat.div_add_mod i len).symm
    omega
  rw [h2, Nat.mul_add_mod, Nat.add_mod_right, Nat.mod_eq_of_lt hj]

theorem embound_pos {w a : ℚ} (ha : 0 < a) : 0 < embound w a := by
  unfold embound
  rw [if_neg (not_le.mpr ha)]
  exact Nat.succ_pos _

theorem embound_emit {w a : ℚ} (hw : 0 < w) (ha : 0 < a) :
    embound w (a - min w a) < embound w a := by
  by_cases hle : a ≤ w
  · have hmin : min w a = a := min_eq_right hle
    rw [hmin, sub_self]
    have h0 : embound w 0 = 0 := by
      unfold embound
      rw [if_pos le_rfl]
    rw [h0]
    exact embound_pos ha
  · push_neg at hle
    have hmin : min w a = w := min_eq_left (le_of_lt hle)
    rw [hmin]
    have hne : w ≠ 0 := ne_of_gt hw
    have h1 : (a - w) / w = a / w - 1 := by
      rw [sub_div, div_self hne]
    have h3 : (1 : ℤ) ≤ ⌊a / w⌋ := by
      rw [Int.le_floor]
      push_cast
      rw [le_div_iff₀ hw]
      linarith
    unfold embound
    rw [if_neg (not_le.mpr ha), if_neg (not_le.mpr (by linarith : (0:ℚ) < a - w))]
    rw [h1]
    have h2 : ⌊a / w - 1⌋ = ⌊a / w⌋ - 1 := by
      have h4 := Int.floor_sub_int (a / w) 1
      simpa using h4
    rw [h2]
    omega

theorem sum_map_lt {α : Type} (l : List α) (f g : α → ℕ)
    (hle : ∀ x ∈ l, g x ≤ f x) (x0 : α) (hx0 : x0 ∈ l) (hlt : g x0 < f x0) :
    (l.map g).sum < (l.map f).sum := by
  induction l with
  | nil => cases hx0
  | cons y ys ih =>
    rw [List.map_cons, List.map_cons, List.sum_cons, List.sum_cons]
    rcases List.mem_cons.mp hx0 with rfl | hmem
    · have hys : (ys.map g).sum ≤ (ys.map f).sum := by
        apply List.sum_le_sum
        intro x hx
        exact hle x (by simp [hx])
      exact Nat.add_lt_add_of_lt_of_le hlt hys
    · have hy : g y ≤ f y := hle y (by simp)
      have hys := ih (fun x hx => hle x (by simp [hx])) hmem
      exact Nat.add_lt_add_of_le_of_lt hy hys

theorem eMeasure_emit {w : ℚ} {queue : List Skill} {alloc : String → ℚ}
    {skill : Skill} (hw : 0 < w) (hmem : skill ∈ queue)
    (ha : 0 < alloc skill.id) :
    eMeasure w queue
      (mapSet alloc skill.id (alloc skill.id - min w (alloc skill.id))) <
    eMeasure w queue alloc := by
  unfold eMeasure
  refine sum_map_lt queue (fun sk => embound w (alloc sk.id))
    (fun sk => embound w (mapSet alloc skill.id
      (alloc skill.id - min w (alloc skill.id)) sk.id)) ?_ skill hmem ?_
  · intro sk _
    dsimp only
    by_cases hid : sk.id = skill.id
    · rw [hid, mapSet_same]
      exact le_of_lt (embound_emit hw ha)
    · rw [mapSet_other _ _ hid]
  · dsimp only
    rw [mapSet_same]
    exact embound_emit hw ha

theorem eMeasure_pos {w : ℚ} {queue : List Skill} {alloc : String → ℚ}
    {skill : Skill} (hmem : skill ∈ queue) (ha : 0 < alloc skill.id) :
    0 < eMeasure w queue alloc := by
  have h1 : embound w (alloc skill.id) ∈
      queue.map (fun sk => embound w (alloc sk.id)) :=
    List.mem_map.mpr ⟨skill, hmem, rfl⟩
  calc 0 < embound w (alloc skill.id) := embound_pos ha
    _ ≤ (queue.map (fun sk => embound w (alloc sk.id))).sum :=
        List.single_le_sum (fun _ _ => Nat.zero_le _) _ h1

theorem lMeasure_mono (lunch : Option Lunch) {ct ct' : ℚ} (h : ct ≤ ct') :
    lMeasure lunch ct' ≤ lMeasure lunch ct := by
  cases lunch with
  | none => exact le_refl _
  | some l =>
    show (if ct' < timeToMinutes l.start + l.duration then 1 else 0) ≤
      (if ct < timeToMinutes l.start + l.duration then 1 else 0)
    by_cases h2 : ct' < timeToMinutes l.start + l.duration
    · rw [if_pos h2, if_pos (lt_of_le_of_lt h h2)]
    · rw [if_neg h2]
      exact Nat.zero_le _

theorem getD_mem {queue : List Skill} (hq : queue ≠ []) (i : ℕ) :
    queue.getD (i % queue.length) dummySkill ∈ queue := by
  have hlen : 0 < queue.length := List.length_pos.mpr hq
  have hlt : i % queue.length < queue.length := Nat.mod_lt i hlen
  rw [List.getD_eq_getElem queue dummySkill hlt]
  exact List.getElem_mem hlt

theorem dMeasure_exists {alloc : String → ℚ} {queue : List Skill}
    {skill : Skill} (hmem : skill ∈ queue) (ha : 0 < alloc skill.id) (i : ℕ) :
    ∃ k, k < queue.length ∧
      0 < alloc ((queue.getD ((i + k) % queue.length) dummySkill).id) := by
  have hlen : 0 < queue.length := List.length_pos.mpr (by
    intro he
    rw [he] at hmem
    cases hmem)
  obtain ⟨j, hjlt, hjget⟩ := List.mem_iff_getElem.mp hmem
  refine ⟨(j + queue.length - i % queue.length) % queue.length,
    Nat.mod_lt _ hlen, ?_⟩
  rw [mod_shift i j queue.length hlen hjlt]
  rw [List.getD_eq_getElem queue dummySkill hjlt, hjget]
  exact ha

theorem dMeasure_le {alloc : String → ℚ} (queue : List Skill) (i : ℕ) :
    dMeasure alloc queue i ≤ queue.length := by
  unfold dMeasure
  by_cases h : ∃ k, k < queue.length ∧
      0 < alloc ((queue.getD ((i + k) % queue.length) dummySkill).id)
  · rw [dif_pos h]
    obtain ⟨k, hk, hkp⟩ := h
    exact le_trans (Nat.find_le ⟨hk, hkp⟩) (le_of_lt hk)
  · rw [dif_neg h]
    exact Nat.zero_le _

theorem dMeasure_skip {alloc : String → ℚ} {queue : List Skill} {i : ℕ}
    (hnot : ¬ 0 < alloc ((queue.getD (i % queue.length) dummySkill).id))
    (hex : ∃ k, k < queue.length ∧
      0 < alloc ((queue.getD ((i + k) % queue.length) dummySkill).id)) :
    dMeasure alloc queue (i + 1) < dMeasure alloc queue i := by
  have hfind := Nat.find_spec hex
  have hpos : 0 < Nat.find hex := by
    rcases Nat.eq_zero_or_pos (Nat.find hex) with h0 | h0
    · exfalso
      have hf0 := hfind
      rw [h0] at hf0
      obtain ⟨-, hf0p⟩ := hf0
      apply hnot
      have he : i + 0 = i := rfl
      rw [he] at hf0p
      exact hf0p
    · exact h0
  have hshift : i + 1 + (Nat.find hex - 1) = i + Nat.find hex := by omega
  have hex' : ∃ k, k < queue.length ∧
      0 < alloc ((queue.getD ((i + 1 + k) % queue.length) dummySkill).id) := by
    refine ⟨Nat.find hex - 1, by omega, ?_⟩
    rw [hshift]
    exact hfind.2
  unfold dMeasure
  rw [dif_pos hex', dif_pos hex]
  have h1 : Nat.find hex' ≤ Nat.find hex - 1 := by
    apply Nat.find_le
    refine ⟨by omega, ?_⟩
    rw [hshift]
    exact hfind.2
  omega

theorem measure_arith {a b c d e f n : ℕ} (h1 : a ≤ d) (h2 : b < e) (h3 : c ≤ n) :
    (a + 2 * b) * (n + 1) + c < (d + 2 * e) * (n + 1) + f := by
  calc (a + 2 * b) * (n + 1) + c
      ≤ (a + 2 * b) * (n + 1) + n := Nat.add_le_add_left h3 _
    _ < (a + 2 * b + 1) * (n + 1) := by
        have he : (a + 2 * b + 1) * (n + 1) = (a + 2 * b) * (n + 1) + (n + 1) := by
          ring
        rw [he]
        omega
    _ ≤ (d + 2 * e) * (n + 1) := Nat.mul_le_mul_right _ (by omega)
    _ ≤ (d + 2 * e) * (n + 1) + f := Nat.le_add_right _ _

theorem loopBody_measure {lunch : Option Lunch} {wbm bm we : ℚ}
    {queue : List Skill} {s : DayState} (hwbm : 0 < wbm) (hbm : 0 ≤ bm)
    (hq : queue ≠ []) :
    ∀ s', loopBody lunch wbm bm we queue s = .inl s' →
      loopMeasure lunch wbm queue s' < loopMeasure lunch wbm queue s := by
  have key : ∀ s', loopBody lunch wbm bm we queue s = Sum.inl s' →
      loopMeasure lunch wbm queue s' < loopMeasure lunch wbm queue s := by
    refine loopBody_elim (motive := fun out => ∀ s', out = Sum.inl s' →
      loopMeasure lunch wbm queue s' < loopMeasure lunch wbm queue s) ?_ ?_ ?_
    · intro l hl hge hlt2 _ s' hs'
      cases hs'
      subst hl
      have hL1 : lMeasure (some l) s.currentTime = 1 := by
        show (if s.currentTime < timeToMinutes l.start + l.duration
          then 1 else 0) = 1
        rw [if_pos hlt2]
      have hL0 : lMeasure (some l) (timeToMinutes l.start + l.duration) = 0 := by
        show (if timeToMinutes l.start + l.duration <
            timeToMinutes l.start + l.duration then 1 else 0) = 0
        rw [if_neg (lt_irrefl _)]
      show (lMeasure (some l) (timeToMinutes l.start + l.duration) +
          2 * eMeasure wbm queue s.dailyAllocation) * (queue.length + 1) +
          dMeasure s.dailyAllocation queue s.queueIndex <
        (lMeasure (some l) s.currentTime +
          2 * eMeasure wbm queue s.dailyAllocation) * (queue.length + 1) +
          dMeasure s.dailyAllocation queue s.queueIndex
      rw [hL0, hL1]
      exact Nat.add_lt_add_right
        (mul_lt_mul_of_pos_right (by omega) (Nat.succ_pos queue.length)) _
    · intro l hl hge hlt2 _ s' hs'
      cases hs'
      subst hl
      have hL1 : lMeasure (some l) s.currentTime = 1 := by
        show (if s.currentTime < timeToMinutes l.start + l.duration
          then 1 else 0) = 1
        rw [if_pos hlt2]
      have hL0 : lMeasure (some l) (timeToMinutes l.start + l.duration) = 0 := by
        show (if timeToMinutes l.start + l.duration <
            timeToMinutes l.start + l.duration then 1 else 0) = 0
        rw [if_neg (lt_irrefl _)]
      show (lMeasure (some l) (timeToMinutes l.start + l.duration) +
          2 * eMeasure wbm queue s.dailyAllocation) * (queue.length + 1) +
          dMeasure s.dailyAllocation queue s.queueIndex <
        (lMeasure (some l) s.currentTime +
          2 * eMeasure wbm queue s.dailyAllocation) * (queue.length + 1) +
          dMeasure s.dailyAllocation queue s.queueIndex
      rw [hL0, hL1]
      exact Nat.add_lt_add_right
        (mul_lt_mul_of_pos_right (by omega) (Nat.succ_pos queue.length)) _
    · refine skillStep_elim (motive := fun out => ∀ s', out = Sum.inl s' →
        loopMeasure lunch wbm queue s' < loopMeasure lunch wbm queue s)
        ?_ ?_ ?_ ?_ ?_ ?_
      · intro skill _ _ _ s' hs'
        cases hs'
      · intro skill hskill hle0 hall s' hs'
        cases hs'
        have hnot : ¬ 0 < s.dailyAllocation
            ((queue.getD (s.queueIndex % queue.length) dummySkill).id) := by
          rw [← hskill]
          exact not_lt.mpr hle0
        have hex0 : ∃ sk ∈ queue, 0 < s.dailyAllocation sk.id := by
          by_contra hc
          push_neg at hc
          apply hall
          rw [List.all_eq_true]
          intro t ht
          rw [List.mem_map] at ht
          obtain ⟨sk, hsk, rfl⟩ := ht
          exact decide_eq_true (hc sk hsk)
        obtain ⟨sk, hskmem, hskpos⟩ := hex0
        have hex := dMeasure_exists hskmem hskpos s.queueIndex
        unfold loopMeasure
        exact Nat.add_lt_add_left (dMeasure_skip hnot hex) _
      · intro skill _ _ _ _ s' hs'
        cases hs'
      · intro skill _ _ _ _ s' hs'
        cases hs'
      · intro skill hskill hpos hfit hbm2 hfit2 _ s' hs'
        cases hs'
        have hmem : skill ∈ queue := by
          rw [hskill]
          exact getD_mem hq s.queueIndex
        have hd0 : 0 < min wbm (s.dailyAllocation skill.id) := lt_min hwbm hpos
        unfold loopMeasure
        apply measure_arith
        · apply lMeasure_mono
          show s.currentTime ≤
            s.currentTime + min wbm (s.dailyAllocation skill.id) + bm
          linarith
        · show eMeasure wbm queue (mapSet s.dailyAllocation skill.id
            (s.dailyAllocation skill.id - min wbm (s.dailyAllocation skill.id))) <
            eMeasure wbm queue s.dailyAllocation
          exact eMeasure_emit hwbm hmem hpos
        · exact dMeasure_le _ _
      · intro skill hskill hpos hfit _ s' hs'
        cases hs'
        have hmem : skill ∈ queue := by
          rw [hskill]
          exact getD_mem hq s.queueIndex
        have hd0 : 0 < min wbm (s.dailyAllocation skill.id) := lt_min hwbm hpos
        unfold loopMeasure
        apply measure_arith
        · apply lMeasure_mono
          show s.currentTime ≤
            s.currentTime + min wbm (s.dailyAllocation skill.id)
          linarith
        · show eMeasure wbm queue (mapSet s.dailyAllocation skill.id
            (s.dailyAllocation skill.id - min wbm (s.dailyAllocation skill.id))) <
            eMeasure wbm queue s.dailyAllocation
          exact eMeasure_emit hwbm hmem hpos
        · exact dMeasure_le _ _
  exact key

theorem dayLoop_completes {lunch : Option Lunch} {wbm bm we : ℚ}
    {queue : List Skill} (hwbm : 0 < wbm) (hbm : 0 ≤ bm) (hq : queue ≠ []) :
    ∀ s, ∃ n, (dayLoop lunch wbm bm we queue n s).2 = true := by
  have H : ∀ m s, loopMeasure lunch wbm queue s < m →
      ∃ n, (dayLoop lunch wbm bm we queue n s).2 = true := by
    intro m
    induction m with
    | zero =>
      intro s h
      exact absurd h (Nat.not_lt_zero _)
    | succ m ih =>
      intro s hm
      by_cases hg : s.currentTime < we ∧ 0 < s.totalAllocatedToday
      · cases hlb : loopBody lunch wbm bm we queue s with
        | inl s' =>
          have hlt := loopBody_measure hwbm hbm hq s' hlb
          obtain ⟨n, hn⟩ := ih s' (by omega)
          refine ⟨n + 1, ?_⟩
          have heq : dayLoop lunch wbm bm we queue (n + 1) s =
              (match loopBody lunch wbm bm we queue s with
               | .inl s2 => dayLoop lunch wbm bm we queue n s2
               | .inr s2 => (s2, true)) := by
            simp [dayLoop, hg]
          rw [heq, hlb]
          exact hn
        | inr s' =>
          refine ⟨1, ?_⟩
          have heq : dayLoop lunch wbm bm we queue 1 s =
              (match loopBody lunch wbm bm we queue s with
               | .inl s2 => dayLoop lunch wbm bm we queue 0 s2
               | .inr s2 => (s2, true)) := by
            simp [dayLoop, hg]
          rw [heq, hlb]
      · refine ⟨1, ?_⟩
        have heq : dayLoop lunch wbm bm we queue 1 s = (s, true) := by
          simp only [dayLoop, if_neg hg]
        rw [heq]
  intro s
  exact H (loopMeasure lunch wbm queue s + 1) s (by omega)

theorem dayLoop_mono {lunch : Option Lunch} {wbm bm we : ℚ}
    {queue : List Skill} :
    ∀ (n : ℕ) (s : DayState), (dayLoop lunch wbm bm we queue n s).2 = true →
      ∀ m, n ≤ m →
        dayLoop lunch wbm bm we queue m s = dayLoop lunch wbm bm we queue n s := by
  intro n
  induction n with
  | zero =>
    intro s h
    simp [dayLoop] at h
  | succ n ih =>
    intro s h m hm
    obtain ⟨m', rfl⟩ : ∃ m2, m = m2 + 1 := ⟨m - 1, by omega⟩
    by_cases hg : s.currentTime < we ∧ 0 < s.totalAllocatedToday
    · have heqn : dayLoop lunch wbm bm we queue (n + 1) s =
          (match loopBody lunch wbm bm we queue s with
           | .inl s2 => dayLoop lunch wbm bm we queue n s2
           | .inr s2 => (s2, true)) := by
        simp [dayLoop, hg]
      have heqm : dayLoop lunch wbm bm we queue (m' + 1) s =
          (match loopBody lunch wbm bm we queue s with
           | .inl s2 => dayLoop lunch wbm bm we queue m' s2
           | .inr s2 => (s2, true)) := by
        simp [dayLoop, hg]
      cases hlb : loopBody lunch wbm bm we queue s with
      | inl s' =>
        rw [heqn, hlb] at h
        rw [heqm, hlb, heqn, hlb]
        exact ih s' h m' (by omega)
      | inr s' =>
        rw [heqm, hlb, heqn, hlb]
    · have h1 : dayLoop lunch wbm bm we queue (n + 1) s = (s, true) := by
        simp only [dayLoop, if_neg hg]
      have h2 : dayLoop lunch wbm bm we queue (m' + 1) s = (s, true) := by
        simp only [dayLoop, if_neg hg]
      rw [h1, h2]

theorem skillQueueOf_length (active : List Skill) (i : ℕ) :
    (skillQueueOf active i).length = active.length := by
  unfold skillQueueOf
  dsimp only
  by_cases hi : 0 < i
  · rw [if_pos hi]
    rw [List.length_append, List.length_drop, List.length_take,
      List.length_insertionSort]
    omega
  · rw [if_neg hi]
    exact List.length_insertionSort _ _

theorem dayRun_mono {fuel : ℕ} {skills : List Skill} {settings : Settings}
    {st : SchedState} (h : (dayRun fuel skills settings st).2 = true) :
    ∀ m, fuel ≤ m →
      dayRun m skills settings st = dayRun fuel skills settings st := by
  intro m hm
  unfold dayRun at h ⊢
  exact dayLoop_mono fuel _ h m hm

theorem pushDay_mono {fuel : ℕ} {skills : List Skill} {settings : Settings}
    {st : SchedState} (date : ℤ)
    (h : (dayRun fuel skills settings st).2 = true) :
    ∀ m, fuel ≤ m →
      pushDay m skills settings date st = pushDay fuel skills settings date st := by
  intro m hm
  have hd := dayRun_mono h m hm
  unfold pushDay dayFinalBlocks
  rw [hd]

theorem dayRun_completes {skills : List Skill} {settings : Settings}
    {st : SchedState} (hwbm : 0 < settings.workBlockMins)
    (hbm : 0 ≤ settings.breakMins)
    (hact : ¬ (activeSkillsOf st.remainingHours skills).isEmpty = true) :
    ∃ n, (dayRun n skills settings st).2 = true := by
  have hne : activeSkillsOf st.remainingHours skills ≠ [] := by
    intro hc
    apply hact
    rw [hc]
    rfl
  have hq : skillQueueOf (activeSkillsOf st.remainingHours skills)
      st.dayIndex ≠ [] := by
    intro hc
    have hl := congrArg List.length hc
    rw [skillQueueOf_length] at hl
    exact hne (List.length_eq_zero.mp hl)
  obtain ⟨n, hn⟩ := dayLoop_completes hwbm hbm hq (dayState0 skills settings st)
  exact ⟨n, hn⟩

theorem runDays_completes {skills : List Skill} {settings : Settings}
    (hwbm : 0 < settings.workBlockMins) (hbm : 0 ≤ settings.breakMins) :
    ∀ (dates : List ℤ) (st : SchedState), st.loopsCompleted = true →
      ∃ N, ∀ n, N ≤ n →
        runDays n skills settings dates st =
          runDays N skills settings dates st ∧
        (runDays n skills settings dates st).1.loopsCompleted = true := by
  intro dates
  induction dates with
  | nil =>
    intro st h
    exact ⟨0, fun n _ => ⟨rfl, h⟩⟩
  | cons d ds ih =>
    intro st h
    by_cases h1 : windowEndOf settings - windowStartOf settings ≤ 0
    · have hp : ∀ n : ℕ, processDay n skills settings d st =
          (st, Ctl.fail SchedError.invalidWindow) := by
        intro n
        unfold processDay
        rw [if_pos h1]
      have hr : ∀ n : ℕ, runDays n skills settings (d :: ds) st =
          (st, some SchedError.invalidWindow) := by
        intro n
        show (match processDay n skills settings d st with
              | (st', Ctl.next) => runDays n skills settings ds st'
              | (st', Ctl.stop) => (st', none)
              | (st', Ctl.fail e) => (st', some e)) =
          (st, some SchedError.invalidWindow)
        rw [hp n]
      refine ⟨0, fun n _ => ⟨by rw [hr n, hr 0], by rw [hr n]; exact h⟩⟩
    · by_cases h2 : allocatableOf settings ≤ 0
      · have hp : ∀ n : ℕ, processDay n skills settings d st = (st, Ctl.next) := by
          intro n
          unfold processDay
          rw [if_neg h1, if_pos h2]
        have hr : ∀ n : ℕ, runDays n skills settings (d :: ds) st =
            runDays n skills settings ds st := by
          intro n
          show (match processDay n skills settings d st with
                | (st', Ctl.next) => runDays n skills settings ds st'
                | (st', Ctl.stop) => (st', none)
                | (st', Ctl.fail e) => (st', some e)) =
            runDays n skills settings ds st
          rw [hp n]
        obtain ⟨N, hN⟩ := ih st h
        refine ⟨N, fun n hn => ?_⟩
        rw [hr n, hr N]
        exact hN n hn
      · by_cases h3 : (activeSkillsOf st.remainingHours skills).isEmpty = true
        · have hp : ∀ n : ℕ, processDay n skills settings d st = (st, Ctl.stop) := by
            intro n
            unfold processDay
            rw [if_neg h1, if_neg h2, if_pos h3]
          have hr : ∀ n : ℕ, runDays n skills settings (d :: ds) st = (st, none) := by
            intro n
            show (match processDay n skills settings d st with
                  | (st', Ctl.next) => runDays n skills settings ds st'
                  | (st', Ctl.stop) => (st', none)
                  | (st', Ctl.fail e) => (st', some e)) = (st, none)
            rw [hp n]
          refine ⟨0, fun n _ => ⟨by rw [hr n, hr 0], by rw [hr n]; exact h⟩⟩
        · by_cases h4 : totalWeightOf (activeSkillsOf st.remainingHours skills) = 0
          · have hp : ∀ n : ℕ, processDay n skills settings d st = (st, Ctl.next) := by
              intro n
              unfold processDay
              rw [if_neg h1, if_neg h2, if_neg h3, if_pos h4]
            have hr : ∀ n : ℕ, runDays n skills settings (d :: ds) st =
                runDays n skills settings ds st := by
              intro n
              show (match processDay n skills settings d st with
                    | (st', Ctl.next) => runDays n skills settings ds st'
                    | (st', Ctl.stop) => (st', none)
                    | (st', Ctl.fail e) => (st', some e)) =
                runDays n skills settings ds st
              rw [hp n]
            obtain ⟨N, hN⟩ := ih st h
            refine ⟨N, fun n hn => ?_⟩
            rw [hr n, hr N]
            exact hN n hn
          · obtain ⟨n0, hn0⟩ := dayRun_completes hwbm hbm h3
            have hstable : ∀ n, n0 ≤ n →
                pushDay n skills settings d st = pushDay n0 skills settings d st :=
              fun n hn => pushDay_mono d hn0 n hn
            have hcomp : (pushDay n0 skills settings d st).loopsCompleted = true := by
              show (st.loopsCompleted && (dayRun n0 skills settings st).2) = true
              rw [h, hn0]
              rfl
            obtain ⟨N1, hN1⟩ := ih (pushDay n0 skills settings d st) hcomp
            have hp : ∀ n : ℕ, processDay n skills settings d st =
                (pushDay n skills settings d st, Ctl.next) := by
              intro n
              unfold processDay
              rw [if_neg h1, if_neg h2, if_neg h3, if_neg h4]
            have hr : ∀ n : ℕ, runDays n skills settings (d :: ds) st =
                runDays n skills settings ds (pushDay n skills settings d st) := by
              intro n
              show (match processDay n skills settings d st with
                    | (st', Ctl.next) => runDays n skills settings ds st'
                    | (st', Ctl.stop) => (st', none)
                    | (st', Ctl.fail e) => (st', some e)) =
                runDays n skills settings ds (pushDay n skills settings d st)
              rw [hp n]
            refine ⟨max n0 N1, fun n hn => ?_⟩
            have hn0le : n0 ≤ n := le_trans (le_max_left _ _) hn
            have hN1le : N1 ≤ n := le_trans (le_max_right _ _) hn
            constructor
            · rw [hr n, hr (max n0 N1), hstable n hn0le,
                hstable (max n0 N1) (le_max_left _ _)]
              rw [(hN1 n hN1le).1, (hN1 (max n0 N1) (le_max_right _ _)).1]
            · rw [hr n, hstable n hn0le]
              exact (hN1 n hN1le).2

/-- C8.  With a positive work-block length and nonnegative break length
(both guaranteed by the data model), `generateSchedule` terminates: some
finite iteration budget is enough for every day's block-emission loop to
exit on its own (each iteration either passes the lunch jump, consumes a
work-block's worth of allocation, or advances the round-robin cursor
towards a still-active skill), and past that budget the result never
changes — every call returns a result or throws one of the defined
errors after finitely many loop iterations over the finite date range. -/
theorem loop_terminates (today : ℤ) (skills : List Skill) (settings : Settings)
    (hwbm : 0 < settings.workBlockMins) (hbm : 0 ≤ settings.breakMins) :
    ∃ N, ∀ n, N ≤ n →
      generateSchedule n today skills settings =
        generateSchedule N today skills settings ∧
      (runDays n skills settings (datesOf today settings)
        (initState skills)).1.loopsCompleted = true := by
  obtain ⟨N, hN⟩ := runDays_completes hwbm hbm (datesOf today settings)
    (initState skills) rfl
  refine ⟨N, fun n hn => ⟨?_, (hN n hn).2⟩⟩
  have hg : ∀ m : ℕ, generateSchedule m today skills settings =
      (if (datesOf today settings).isEmpty ∧ settings.mode = Mode.Monthly then
        Except.error SchedError.invalidRange
      else
        match runDays m skills settings (datesOf today settings)
            (initState skills) with
        | (_, some e) => Except.error e
        | (st, none) =>
          if st.generatedSchedule.isEmpty then Except.error SchedError.emptySchedule
          else Except.ok (st.generatedSchedule,
            summaryOf skills st.totalMinutesPerSkill)) := fun m => rfl
  rw [hg n, hg N, (hN n hn).1]

unseal Rat.add Rat.mul Rat.sub Rat.inv in
/-- Witness for C8: Scenario A's input has a 50-minute work block and a
10-minute break, so its loops terminate and the schedule is stable past
some finite fuel. -/
theorem loop_terminates_witness :
    0 < scenarioASettings.workBlockMins ∧ 0 ≤ scenarioASettings.breakMins ∧
    ∃ N, ∀ n, N ≤ n →
      generateSchedule n 0 scenarioASkills scenarioASettings =
        generateSchedule N 0 scenarioASkills scenarioASettings ∧
      (runDays n scenarioASkills scenarioASettings
        (datesOf 0 scenarioASettings)
        (initState scenarioASkills)).1.loopsCompleted = true :=
  ⟨by decide, by decide,
    loop_terminates 0 scenarioASkills scenarioASettings (by decide) (by decide)⟩

end SkillPlan
